import Mathlib

/-!
# The prefix-scoped de-duplicating store (`pkg/store`)

A shallow embedding of `Badger.Write` and `Badger.Read` (`pkg/store/badger.go`)
together with the collaborators they drive:

* the access guard: the two `map[string]bool` fields `writing` and `reading`;
* `bufio.Scanner` with its default split function `bufio.ScanLines` and its
  default token limit `bufio.MaxScanTokenSize`;
* the ordered key-value engine (BadgerDB): `DropPrefix`, `WriteBatch`, `Stream`;
* the `context.Context` polled by the write loop and the `io.Writer` sink.

Byte strings are lists of byte values; Go compares strings bytewise, which is
the lexicographic order on such lists.
-/

namespace Store

/-! ## Byte strings -/

/-- A Go `string` or `[]byte`: a finite sequence of byte values. -/
abbrev Bytes := List Nat

/-- The bytes of an ASCII literal. -/
def ascii (s : String) : Bytes := s.toList.map Char.toNat

/-- The package variable `newLine = []byte("\n")`. -/
def newLine : Bytes := [10]

/-- The key separator `":"` of `prefix + ":" + line`. -/
def colon : Bytes := [58]

/-! ## Errors -/

/-- What `ctx.Err()` returns once the context is done: `context.Canceled` or
`context.DeadlineExceeded`. -/
inductive CtxError where
  | Canceled
  | DeadlineExceeded
  deriving DecidableEq, Repr

/-- The errors `Read` and `Write` return: the two sentinel errors of `store.go`,
the context errors, and one constructor per `errors.Wrap`/`errors.Errorf` site. -/
inductive Error where
  | ErrWriting
  | ErrReading
  | context (e : CtxError)
  | clearPrefixFailed
  | writeEntryFailed
  | flushFailed
  | kvWriteFailed
  | kvShortWrite (n len : Nat)
  | newlineWriteFailed
  | newlineShortWrite (n len : Nat)
  | streamFailed
  deriving DecidableEq, Repr

/-- The conflict errors of the access guard. -/
def Error.isConflict : Error → Bool
  | .ErrWriting => true
  | .ErrReading => true
  | _ => false

/-! ## The access guard: `map[string]bool` -/

/-- A Go `map[string]bool`. -/
abbrev BoolMap := Bytes → Option Bool

/-- The empty map `map[string]bool{}`. -/
def BoolMap.empty : BoolMap := fun _ => none

/-- Indexing `m[k]`: the zero value `false` when the key is absent. -/
def BoolMap.get (m : BoolMap) (k : Bytes) : Bool := (m k).getD false

/-- Assignment `m[k] = v`. -/
def BoolMap.set (m : BoolMap) (k : Bytes) (v : Bool) : BoolMap :=
  fun x => if x = k then some v else m x

/-- Removal `delete(m, k)`. -/
def BoolMap.delete (m : BoolMap) (k : Bytes) : BoolMap :=
  fun x => if x = k then none else m x

/-! ## `context.Context` -/

/-- A context as the store observes it: `doneAfter = none` is never cancelled;
`doneAfter = some k` lets the first `k` polls of `ctx.Done()` find it live and
every later poll find it done (`some 0`: already cancelled at the call).
`err` is what `ctx.Err()` returns once done. -/
structure Context where
  doneAfter : Option Nat
  err : CtxError
  deriving DecidableEq, Repr

/-- The value of `context.Background()`: never done. -/
def Context.Background : Context := ⟨none, .Canceled⟩

/-- Whether poll number `i` (from 0) of `<-ctx.Done()` fires. -/
def Context.done (ctx : Context) (i : Nat) : Bool :=
  match ctx.doneAfter with
  | none => false
  | some k => decide (k ≤ i)

/-! ## `io.Writer` -/

/-- An `io.Writer`: the bytes it has taken so far, how many more it can take
(`none`: unbounded) and, when a write does not fit, whether it reports an error
or only a short count. -/
structure Sink where
  out : Bytes
  room : Option Nat
  failsWithErr : Bool
  deriving DecidableEq, Repr

/-- A sink that takes everything, such as a `bytes.Buffer`. -/
def Sink.buffer : Sink := ⟨[], none, false⟩

/-- The call `w.Write(p)`: the count `n`, whether `err != nil`, and the sink after. -/
def Sink.Write (w : Sink) (p : Bytes) : Nat × Bool × Sink :=
  match w.room with
  | none => (p.length, false, { w with out := w.out ++ p })
  | some r =>
    if p.length ≤ r then
      (p.length, false, { w with out := w.out ++ p, room := some (r - p.length) })
    else
      (r, w.failsWithErr, { w with out := w.out ++ p.take r, room := some 0 })

/-! ## `bufio.Scanner` with `bufio.ScanLines` -/

/-- The constant `bufio.MaxScanTokenSize = 64 * 1024`. -/
def maxScanTokenSize : Nat := 64 * 1024

/-- The call `bytes.IndexByte(data, c)`: index of the first `c`, if any. -/
def IndexByte : Bytes → Nat → Option Nat
  | [], _ => none
  | b :: bs, c => if b = c then some 0 else (IndexByte bs c).map (· + 1)

/-- The helper `dropCR` of `bufio`: drops one terminal `\r`. -/
def dropCR (data : Bytes) : Bytes :=
  if data.getLast? = some 13 then data.dropLast else data

/-- The split function `bufio.ScanLines(data, atEOF)`: the advance and the token
(`none`: no token yet, more data is requested). -/
def ScanLines (data : Bytes) (atEOF : Bool) : Nat × Option Bytes :=
  if atEOF && data.length == 0 then (0, none)
  else
    match IndexByte data 10 with
    | some i => (i + 1, some (dropCR (data.take i)))
    | none => if atEOF then (data.length, some (dropCR data)) else (0, none)

/-- One call of `scanner.Scan()` on the unread input `rest` (the bytes the reader
still delivers before it ends). The scanner's buffer holds at most `limit` bytes
from the start of the pending token, so the split function sees the first
`limit` bytes of `rest`, with `atEOF` once the whole of `rest` is buffered with
room to spare for the read that reports the end. `some (token, rest')` is
`Scan() == true` with `scanner.Text() = token`; `none` is `Scan() == false`,
either at the end of the input or with `ErrTooLong` when the buffer is full and
holds no token. `Write` never consults `scanner.Err()`, so the two are not told
apart here. -/
def Scanner.Scan (limit : Nat) (rest : Bytes) : Option (Bytes × Bytes) :=
  match ScanLines (rest.take limit) (decide (rest.length < limit)) with
  | (advance, some token) => some (token, rest.drop advance)
  | (_, none) => none

/-- Whether `scanner.Err()` would be `ErrTooLong` after `Scan()` returned false. -/
def Scanner.tooLong (limit : Nat) (rest : Bytes) : Bool :=
  (Scanner.Scan limit rest).isNone && decide (limit ≤ rest.length)

/-- All the tokens successive `Scan()` calls yield, `fuel` bounding the number
of calls. -/
def Scanner.tokens (limit : Nat) : Nat → Bytes → List Bytes
  | 0, _ => []
  | fuel + 1, rest =>
    match Scanner.Scan limit rest with
    | none => []
    | some (token, rest') => token :: Scanner.tokens limit fuel rest'

/-- The lines `Write` reads from the input `r`: every `scanner.Text()` of its loop. -/
def scannedLines (r : Bytes) : List Bytes :=
  Scanner.tokens maxScanTokenSize (r.length + 1) r

/-! ## The ordered key-value engine -/

/-- A `badger.Entry` / `pb.KV`: key and value. -/
structure KV where
  key : Bytes
  value : Bytes
  deriving DecidableEq, Repr

/-- Modelled from the spec: the Ordered Key-Value Engine (BadgerDB, an external
collaborator whose code is not part of the repository), of which the core
"only relies on its sort order, atomicity-per-batch, and prefix-delete
primitive". The engine state is the finite set of its entries, at most one per
key once a key has been written. -/
abbrev DB := List KV

/-- Modelled from the spec: an upsert of one entry, replacing the entry stored
under the same key. -/
def DB.set (db : DB) (e : KV) : DB :=
  e :: db.filter (fun x => decide (x.key ≠ e.key))

/-- Modelled from the spec: `db.DropPrefix(p)`, the prefix-delete primitive:
removes every entry whose key starts with `p`. -/
def DB.DropPrefix (db : DB) (p : Bytes) : DB :=
  db.filter (fun x => !p.isPrefixOf x.key)

/-- Modelled from the spec: the sorted range scan over all keys starting with
`p`, in ascending bytewise order of the full key. -/
def DB.scan (db : DB) (p : Bytes) : List KV :=
  (db.filter (fun x => p.isPrefixOf x.key)).insertionSort (fun a b => a.key ≤ b.key)

/-- The life cycle of a `badger.WriteBatch`. -/
inductive BatchState where
  | pending
  | flushed
  | cancelled
  deriving DecidableEq, Repr

/-- Modelled from the spec: a write batch: the staged upserts, in staging order,
and whether the batch is still pending, was flushed or was cancelled. -/
structure WriteBatch where
  staged : List KV
  state : BatchState
  deriving DecidableEq, Repr

/-- The call `db.NewWriteBatch()`. -/
def WriteBatch.new : WriteBatch := ⟨[], .pending⟩

/-- The call `batch.SetEntry(e)` when it succeeds: stages the upsert. -/
def WriteBatch.SetEntry (b : WriteBatch) (e : KV) : WriteBatch :=
  { b with staged := b.staged ++ [e] }

/-- The call `batch.Cancel()`: discards the staged upserts. -/
def WriteBatch.Cancel (b : WriteBatch) : WriteBatch :=
  { b with staged := [], state := .cancelled }

/-- Modelled from the spec: `batch.Flush()` when it succeeds: commits the staged
upserts to the engine as a single commit, in staging order. -/
def WriteBatch.Flush (b : WriteBatch) (db : DB) : DB × WriteBatch :=
  (b.staged.foldl DB.set db, ⟨[], .flushed⟩)

/-- What the engine does wrong during one call: whether `DropPrefix` fails, the
index of the `SetEntry` call that fails, whether `Flush` fails, whether the
stream fails before sending anything, and how many entries the stream packs
into one `KVList` (at least one). A failing `DropPrefix` is taken to delete
nothing and a failing `Flush` to commit nothing. -/
structure Faults where
  dropPrefix : Bool
  setEntry : Option Nat
  flush : Bool
  stream : Bool
  batchLen : Nat
  deriving DecidableEq, Repr

/-- An engine that does nothing wrong. -/
def Faults.none : Faults := ⟨false, Option.none, false, false, 1⟩

/-- Modelled from the spec: how the stream groups the scanned entries into
batches (`KVList`s) of at most `n` entries, order kept. -/
def batches (n : Nat) : List KV → List (List KV)
  | [] => []
  | x :: xs =>
    match batches n xs with
    | [] => [[x]]
    | c :: cs => if c.length < n then (x :: c) :: cs else [x] :: c :: cs

/-! ## `Badger` -/

/-- The struct `Badger`: the two guard maps and the engine (the mutex `mu` is the
atomicity of `acquireRead`, `acquireWrite`, `releaseRead` and `releaseWrite`). -/
structure Badger where
  writing : BoolMap
  reading : BoolMap
  db : DB

/-- The result of `newBadger` on an empty directory: a fresh store. -/
def Badger.fresh : Badger := ⟨BoolMap.empty, BoolMap.empty, []⟩

/-- The first critical section of `Read`: fails with `ErrWriting` or `ErrReading`,
else sets `b.reading[prefix] = true`. -/
def Badger.acquireRead (b : Badger) (pfx : Bytes) : Except Error Badger :=
  if b.writing.get pfx then .error .ErrWriting
  else if b.reading.get pfx then .error .ErrReading
  else .ok { b with reading := b.reading.set pfx true }

/-- The deferred function of `Read`: `delete(b.reading, prefix)`. -/
def Badger.releaseRead (b : Badger) (pfx : Bytes) : Badger :=
  { b with reading := b.reading.delete pfx }

/-- The first critical section of `Write`: fails with `ErrWriting` or `ErrReading`,
else sets `b.writing[prefix] = true`. -/
def Badger.acquireWrite (b : Badger) (pfx : Bytes) : Except Error Badger :=
  if b.writing.get pfx then .error .ErrWriting
  else if b.reading.get pfx then .error .ErrReading
  else .ok { b with writing := b.writing.set pfx true }

/-- The deferred function of `Write`: `delete(b.writing, prefix)`. -/
def Badger.releaseWrite (b : Badger) (pfx : Bytes) : Badger :=
  { b with writing := b.writing.delete pfx }

/-! ### `Read` -/

/-- The callback `stream.Send` of `Read` on one `KVList`: for every entry, the
value and then a newline go to the sink, each write checked for an error and
for a short count. -/
def Send : List KV → Sink → Option Error × Sink
  | [], w => (none, w)
  | kv :: rest, w =>
    match w.Write kv.value with
    | (n, err, w1) =>
      if err then (some .kvWriteFailed, w1)
      else if n ≠ kv.value.length then (some (.kvShortWrite n kv.value.length), w1)
      else
        match w1.Write newLine with
        | (m, err2, w2) =>
          if err2 then (some .newlineWriteFailed, w2)
          else if m ≠ newLine.length then (some (.newlineShortWrite m newLine.length), w2)
          else Send rest w2

/-- Modelled from the spec: the stream hands its batches to `Send` in key order,
polling the context once per batch and stopping at the first error. -/
def sendBatches (ctx : Context) : Nat → List (List KV) → Sink → Option Error × Sink
  | _, [], w => (none, w)
  | i, l :: ls, w =>
    if ctx.done i then (some (.context ctx.err), w)
    else
      match Send l w with
      | (some e, w1) => (some e, w1)
      | (none, w1) => sendBatches ctx (i + 1) ls w1

/-- Modelled from the spec: `stream.Orchestrate(ctx)` for a stream with
`stream.Prefix = pfx`. -/
def Orchestrate (ctx : Context) (env : Faults) (db : DB) (pfx : Bytes) (w : Sink) :
    Option Error × Sink :=
  if env.stream then (some .streamFailed, w)
  else sendBatches ctx 0 (batches env.batchLen (db.scan pfx)) w

/-- What a call of `Read` leaves: the returned error (`none`: `nil`), the store and
the sink. -/
structure ReadResult where
  err : Option Error
  store : Badger
  sink : Sink

/-- The method `Badger.Read(ctx, prefix, w)`. -/
def Badger.Read (ctx : Context) (env : Faults) (b : Badger) (pfx : Bytes) (w : Sink) :
    ReadResult :=
  match b.acquireRead pfx with
  | .error e => ⟨some e, b, w⟩
  | .ok b1 =>
    match Orchestrate ctx env b1.db (pfx ++ colon) w with
    | (e, w1) => ⟨e, b1.releaseRead pfx, w1⟩

/-! ### `Write` -/

/-- How the `for scanner.Scan()` loop of `Write` ends: by a `return` inside the
body, or with the scanner exhausted. -/
inductive LoopEnd where
  | returned (e : Error) (batch : WriteBatch)
  | exhausted (batch : WriteBatch)
  deriving DecidableEq, Repr

/-- The loop `for scanner.Scan() { ... }` of `Write`; `i` counts the iterations
done, `rest` is the unread input. Each iteration polls the context, then stages
`(prefix + ":" + line, line)`; a failing `SetEntry` cancels the batch. -/
def writeLoop (ctx : Context) (env : Faults) (pfx : Bytes) :
    Nat → Nat → Bytes → WriteBatch → LoopEnd
  | 0, _, _, batch => .exhausted batch
  | fuel + 1, i, rest, batch =>
    match Scanner.Scan maxScanTokenSize rest with
    | none => .exhausted batch
    | some (line, rest') =>
      if ctx.done i then .returned (.context ctx.err) batch
      else if env.setEntry = some i then .returned .writeEntryFailed batch.Cancel
      else writeLoop ctx env pfx fuel (i + 1) rest' (batch.SetEntry ⟨pfx ++ colon ++ line, line⟩)

/-- What the body of `Write` (after the guard) leaves: the returned error, the
engine state and the batch. -/
structure WriteOutcome where
  err : Option Error
  db : DB
  batch : WriteBatch
  deriving DecidableEq, Repr

/-- The body of `Write` between acquiring and releasing the write slot. -/
def writeBody (ctx : Context) (env : Faults) (db : DB) (pfx : Bytes) (r : Bytes) :
    WriteOutcome :=
  let batch := WriteBatch.new
  if env.dropPrefix then ⟨some .clearPrefixFailed, db, batch⟩
  else
    let db1 := db.DropPrefix (pfx ++ colon)
    match writeLoop ctx env pfx (r.length + 1) 0 r batch with
    | .returned e batch1 => ⟨some e, db1, batch1⟩
    | .exhausted batch1 =>
      if env.flush then ⟨some .flushFailed, db1, batch1.Cancel⟩
      else
        match batch1.Flush db1 with
        | (db2, batch2) => ⟨none, db2, batch2⟩

/-- What a call of `Write` leaves: the returned error (`none`: `nil`), the store,
and the batch it opened (`none`: it opened none). -/
structure WriteResult where
  err : Option Error
  store : Badger
  batch : Option WriteBatch

/-- The method `Badger.Write(ctx, prefix, r)`; `r` is the bytes the reader delivers. -/
def Badger.Write (ctx : Context) (env : Faults) (b : Badger) (pfx : Bytes) (r : Bytes) :
    WriteResult :=
  match b.acquireWrite pfx with
  | .error e => ⟨some e, b, none⟩
  | .ok b1 =>
    match writeBody ctx env b1.db pfx r with
    | ⟨e, db1, batch⟩ => ⟨e, ({ b1 with db := db1 }).releaseWrite pfx, some batch⟩

/-! ## Derived notions -/

/-- The entry `Write` stages for one line: key `prefix + ":" + line`, value `line`. -/
def entry (pfx line : Bytes) : KV := ⟨pfx ++ colon ++ line, line⟩

/-- The entries of `db` a `Read` of a stream prefix `p` can see: those whose key
starts with `p`. -/
def DB.under (db : DB) (p : Bytes) : DB :=
  db.filter (fun x => p.isPrefixOf x.key)

/-- The bytes `Read` sends for a list of lines: every line followed by `newLine`. -/
def emit (lines : List Bytes) : Bytes :=
  lines.flatMap (fun l => l ++ newLine)

/-- The engine state a `Write` body leaves when it returns `nil`: the old entries
of the prefix dropped, then the scanned lines upserted. -/
def written (db : DB) (p r : Bytes) : DB :=
  ((scannedLines r).map (entry p)).foldl DB.set (db.DropPrefix (p ++ colon))

/-- A `Write` of `r` to prefix `p` followed by a `Read` of prefix `q` into an empty
buffer, with a background context and an engine that does nothing wrong. -/
def writeThenRead (b : Badger) (p r q : Bytes) : ReadResult :=
  Badger.Read Context.Background Faults.none
    (Badger.Write Context.Background Faults.none b p r).store q Sink.buffer

/-! ## Statements of the round trip and of prefix isolation -/

/-- Round trip on a fresh store: writing `lines`, each ended by one newline, succeeds,
and reading the prefix back succeeds and yields exactly the distinct lines, strictly
ascending, each ended by one newline. -/
def RoundTrip (p : Bytes) (lines : List Bytes) : Prop :=
  (Badger.Write Context.Background Faults.none Badger.fresh p (emit lines)).err = none ∧
  (writeThenRead Badger.fresh p (emit lines) p).err = none ∧
  ∃ L : List Bytes, L.Sorted (· < ·) ∧ (∀ t, t ∈ L ↔ t ∈ lines) ∧
    (writeThenRead Badger.fresh p (emit lines) p).sink.out = emit L

/-- Prefix isolation of `p1` from `p2`: no `Write` to `p1`, whatever its outcome,
changes what any `Read` of `p2` returns or sends; and after a `Write` to `p1` on a
fresh store a `Read` of `p2` succeeds with nothing sent. -/
def Isolated (p1 p2 : Bytes) : Prop :=
  (∀ (ctx : Context) (env : Faults) (b : Badger) (r : Bytes)
      (ctx2 : Context) (env2 : Faults) (w : Sink),
      (Badger.Read ctx2 env2 (Badger.Write ctx env b p1 r).store p2 w).err =
        (Badger.Read ctx2 env2 b p2 w).err ∧
      (Badger.Read ctx2 env2 (Badger.Write ctx env b p1 r).store p2 w).sink =
        (Badger.Read ctx2 env2 b p2 w).sink) ∧
  ∀ r : Bytes, (writeThenRead Badger.fresh p1 r p2).err = none ∧
    (writeThenRead Badger.fresh p1 r p2).sink.out = []

/-- Two prefixes whose key ranges cannot meet: neither `p1 + ":"` starts
`p2 + ":"` nor the other way round. -/
def Independent (p1 p2 : Bytes) : Prop :=
  ¬ (p1 ++ colon) <+: (p2 ++ colon) ∧ ¬ (p2 ++ colon) <+: (p1 ++ colon)

/-! ## Reference definition of the line tokens -/

/-- The raw lines of a text: the segments ended by `\n`, and the final segment
without `\n` when it is not empty. -/
def rawLines : Bytes → List Bytes
  | [] => []
  | b :: bs =>
    if b = 10 then [] :: rawLines bs
    else
      match rawLines bs with
      | [] => [[b]]
      | l :: ls => (b :: l) :: ls

/-- The line tokens of a text in the words of `bufio.ScanLines`: each raw line
with one terminal `\r` dropped (also on a final line without `\n`, as `ScanLines`
does at the end of the input); empty lines are kept as the empty token. -/
def lineTokens (r : Bytes) : List Bytes :=
  (rawLines r).map dropCR

/-- Every raw line of `r`, with its terminator, fits the scanner's buffer. -/
def linesFit (r : Bytes) : Prop :=
  ∀ l ∈ rawLines r, l.length < maxScanTokenSize

/-- Replace semantics for a `Write` of `A` and then a `Write` of `B` to prefix `p`:
on every store, when both writes return `nil`, the entries stored under `p` are
exactly one entry `(p + ":" + l, l)` for each distinct line `l` of `B`, and a
following `Read` of `p` (context live, stream working) succeeds and sends exactly
the distinct lines of `B`, strictly ascending, each followed by a newline. -/
def Replaces (p A B : Bytes) : Prop :=
  ∀ (ctx1 ctx2 ctx3 : Context) (env1 env2 env3 : Faults) (b : Badger),
    (Badger.Write ctx1 env1 b p A).err = none →
    (Badger.Write ctx2 env2 (Badger.Write ctx1 env1 b p A).store p B).err = none →
    ctx3.doneAfter = none → env3.stream = false →
    (∀ kv, kv ∈ (Badger.Write ctx2 env2 (Badger.Write ctx1 env1 b p A).store p B).store.db.under
          (p ++ colon) ↔ ∃ l ∈ rawLines B, kv = entry p l) ∧
      ((Badger.Write ctx2 env2 (Badger.Write ctx1 env1 b p A).store p B).store.db.under
          (p ++ colon)).Nodup ∧
      (Badger.Read ctx3 env3
          (Badger.Write ctx2 env2 (Badger.Write ctx1 env1 b p A).store p B).store p
          Sink.buffer).err = none ∧
      ∃ L : List Bytes, L.Sorted (· < ·) ∧ (∀ l, l ∈ L ↔ l ∈ rawLines B) ∧
        (Badger.Read ctx3 env3
          (Badger.Write ctx2 env2 (Badger.Write ctx1 env1 b p A).store p B).store p
          Sink.buffer).sink.out = emit L

/-! ## Concurrent use of the access guard -/

/-- Whether an operation is a `Read` or a `Write`. -/
inductive Mode where
  | read
  | write
  deriving DecidableEq, Repr

/-- An operation in flight: a call of `Read` or `Write` on a prefix that has
acquired its slot and not yet released it. -/
structure Op where
  pfx : Bytes
  mode : Mode
  deriving DecidableEq, Repr

/-- The shared store together with the operations in flight. -/
structure Sys where
  store : Badger
  active : List Op

/-- The initial system: a fresh store, nothing in flight. -/
def Sys.init : Sys := ⟨Badger.fresh, []⟩

/-- The atomic steps of concurrent calls: the acquiring critical section of a
`Read` or a `Write` that succeeds (a rejected call changes nothing and is
no step), the deferred release of an operation in flight, and any engine
activity of a call body, which leaves the guard maps alone. -/
inductive Step : Sys → Sys → Prop where
  | acquireRead (s : Sys) (p : Bytes) (b1 : Badger) :
      s.store.acquireRead p = .ok b1 → Step s ⟨b1, ⟨p, .read⟩ :: s.active⟩
  | acquireWrite (s : Sys) (p : Bytes) (b1 : Badger) :
      s.store.acquireWrite p = .ok b1 → Step s ⟨b1, ⟨p, .write⟩ :: s.active⟩
  | releaseRead (s : Sys) (p : Bytes) :
      ⟨p, .read⟩ ∈ s.active → Step s ⟨s.store.releaseRead p, s.active.erase ⟨p, .read⟩⟩
  | releaseWrite (s : Sys) (p : Bytes) :
      ⟨p, .write⟩ ∈ s.active → Step s ⟨s.store.releaseWrite p, s.active.erase ⟨p, .write⟩⟩
  | engine (s : Sys) (db1 : DB) :
      Step s ⟨{ s.store with db := db1 }, s.active⟩

/-- The states reachable from the initial system. -/
def Reachable (s : Sys) : Prop := Relation.ReflTransGen Step Sys.init s

/-- The operations in flight on prefix `p`. -/
def Sys.holders (s : Sys) (p : Bytes) : List Op :=
  s.active.filter (fun o => decide (o.pfx = p))

/-- The guard maps record exactly the operations in flight, and no prefix has two. -/
def Sys.Consistent (s : Sys) : Prop :=
  (∀ q, s.store.writing.get q = true ↔ (⟨q, .write⟩ : Op) ∈ s.active) ∧
  (∀ q, s.store.reading.get q = true ↔ (⟨q, .read⟩ : Op) ∈ s.active) ∧
  (s.active.map Op.pfx).Nodup

/-! ## Lemmas: the scanner -/

theorem IndexByte_lt_length (c : Nat) :
    ∀ (r : Bytes) (i : Nat), IndexByte r c = some i → i < r.length := by
  intro r
  induction r with
  | nil => intro i h; simp [IndexByte] at h
  | cons b bs ih =>
    intro i h
    by_cases hb : b = c
    · simp [IndexByte, hb] at h
      subst h
      simp
    · simp only [IndexByte, hb, if_false, Option.map_eq_some'] at h
      obtain ⟨j, hj, rfl⟩ := h
      have := ih j hj
      simp
      omega

theorem IndexByte_take_some (c : Nat) :
    ∀ (r : Bytes) (i n : Nat), IndexByte r c = some i → i < n →
      IndexByte (r.take n) c = some i := by
  intro r
  induction r with
  | nil => intro i n h; simp [IndexByte] at h
  | cons b bs ih =>
    intro i n h hn
    cases n with
    | zero => omega
    | succ m =>
      by_cases hb : b = c
      · simp [IndexByte, hb] at h
        subst h
        simp [IndexByte, hb]
      · simp only [IndexByte, hb, if_false, Option.map_eq_some'] at h
        obtain ⟨j, hj, rfl⟩ := h
        have := ih j m hj (by omega)
        simp [IndexByte, hb, this]

theorem IndexByte_take_none (c : Nat) :
    ∀ (r : Bytes) (n : Nat), IndexByte r c = none → IndexByte (r.take n) c = none := by
  intro r
  induction r with
  | nil => intro n _; simp [IndexByte]
  | cons b bs ih =>
    intro n h
    cases n with
    | zero => simp [IndexByte]
    | succ m =>
      by_cases hb : b = c
      · simp [IndexByte, hb] at h
      · simp only [IndexByte, hb, if_false, Option.map_eq_none'] at h
        simp [IndexByte, hb, ih m h]

theorem IndexByte_replicate (a c n : Nat) (h : a ≠ c) :
    IndexByte (List.replicate n a) c = none := by
  induction n with
  | zero => simp [IndexByte]
  | succ m ih => simp [List.replicate_succ, IndexByte, h, ih]

theorem rawLines_of_index_some :
    ∀ (r : Bytes) (i : Nat), IndexByte r 10 = some i →
      rawLines r = r.take i :: rawLines (r.drop (i + 1)) := by
  intro r
  induction r with
  | nil => intro i h; simp [IndexByte] at h
  | cons b bs ih =>
    intro i h
    by_cases hb : b = 10
    · simp [IndexByte, hb] at h
      subst h
      simp [rawLines, hb]
    · simp only [IndexByte, hb, if_false, Option.map_eq_some'] at h
      obtain ⟨j, hj, rfl⟩ := h
      simp [rawLines, hb, ih j hj]

theorem rawLines_of_index_none :
    ∀ (r : Bytes), IndexByte r 10 = none → r ≠ [] → rawLines r = [r] := by
  intro r
  induction r with
  | nil => intro _ h; exact absurd rfl h
  | cons b bs ih =>
    intro h _
    by_cases hb : b = 10
    · simp [IndexByte, hb] at h
    · simp only [IndexByte, hb, if_false, Option.map_eq_none'] at h
      cases bs with
      | nil => simp [rawLines, hb]
      | cons b2 bs2 =>
        have := ih h (by simp)
        simp [rawLines, hb] at this ⊢
        rw [this]

theorem Scan_nil (limit : Nat) : Scanner.Scan limit [] = none := by
  by_cases h : 0 < limit <;> simp [Scanner.Scan, ScanLines, IndexByte, h]

theorem Scan_of_index_some (limit : Nat) (r : Bytes) (i : Nat)
    (h : IndexByte r 10 = some i) (hi : i < limit) :
    Scanner.Scan limit r = some (dropCR (r.take i), r.drop (i + 1)) := by
  have hlen := IndexByte_lt_length 10 r i h
  have h1 := IndexByte_take_some 10 r i limit h hi
  have h2 : ((r.take limit).length == 0) = false := by
    rw [beq_eq_false_iff_ne, List.length_take]
    omega
  have h3 : List.take i (List.take limit r) = List.take i r := by
    rw [List.take_take, Nat.min_eq_left (Nat.le_of_lt hi)]
  rw [Scanner.Scan, ScanLines, h2, Bool.and_false, h1]
  simp [h3]

theorem Scan_of_index_none (limit : Nat) (r : Bytes)
    (h : IndexByte r 10 = none) (hr : r ≠ []) (hlen : r.length < limit) :
    Scanner.Scan limit r = some (dropCR r, []) := by
  have h1 : r.take limit = r := List.take_of_length_le (Nat.le_of_lt hlen)
  simp [Scanner.Scan, ScanLines, h1, h, hlen, hr]

theorem Scan_too_long (limit : Nat) (r : Bytes)
    (h : IndexByte (r.take limit) 10 = none) (hlen : limit ≤ r.length) :
    Scanner.Scan limit r = none := by
  simp [Scanner.Scan, ScanLines, h, Nat.not_lt.mpr hlen]

theorem Scan_length_lt (limit : Nat) (r : Bytes) (t r1 : Bytes)
    (h : Scanner.Scan limit r = some (t, r1)) : r1.length < r.length := by
  rw [Scanner.Scan, ScanLines] at h
  by_cases h0 : (decide (r.length < limit) && (r.take limit).length == 0) = true
  · rw [if_pos h0] at h
    simp at h
  · rw [if_neg h0] at h
    cases hi : IndexByte (r.take limit) 10 with
    | some i =>
      have hl := IndexByte_lt_length 10 _ i hi
      rw [List.length_take] at hl
      rw [hi] at h
      simp only [Option.some.injEq, Prod.mk.injEq] at h
      obtain ⟨_, rfl⟩ := h
      rw [List.length_drop]
      omega
    | none =>
      rw [hi] at h
      by_cases he : r.length < limit
      · have hpos : 0 < r.length := by
          rcases Nat.eq_zero_or_pos r.length with hz | hz
          · exfalso
            apply h0
            simp [he, List.length_take, hz]
            omega
          · exact hz
        simp only [he, decide_True, if_true, Option.some.injEq, Prod.mk.injEq] at h
        obtain ⟨_, rfl⟩ := h
        rw [List.length_drop, List.length_take]
        omega
      · simp [he] at h

theorem tokens_fuel (limit : Nat) :
    ∀ (fuel : Nat) (r : Bytes), r.length < fuel →
      Scanner.tokens limit fuel r = Scanner.tokens limit (r.length + 1) r := by
  intro fuel
  induction fuel using Nat.strong_induction_on with
  | _ fuel ih =>
    intro r hr
    cases fuel with
    | zero => omega
    | succ f =>
      simp only [Scanner.tokens]
      cases hs : Scanner.Scan limit r with
      | none => simp
      | some p =>
        obtain ⟨t, r1⟩ := p
        have hl := Scan_length_lt limit r t r1 hs
        simp only
        rw [ih f (by omega) r1 (by omega), ih r.length (by omega) r1 hl]

theorem tokens_eq_lineTokens (limit : Nat) :
    ∀ (fuel : Nat) (r : Bytes), r.length < fuel →
      (∀ l ∈ rawLines r, l.length < limit) →
      Scanner.tokens limit fuel r = lineTokens r := by
  intro fuel
  induction fuel with
  | zero => intro r h; omega
  | succ f ih =>
    intro r hr hfit
    by_cases hnil : r = []
    · subst hnil
      simp [Scanner.tokens, Scan_nil, lineTokens, rawLines]
    · cases hi : IndexByte r 10 with
      | some i =>
        have hlen := IndexByte_lt_length 10 r i hi
        have hraw := rawLines_of_index_some r i hi
        have hilim : i < limit := by
          have := hfit (r.take i) (by rw [hraw]; simp)
          simp at this
          omega
        have hrest : ∀ l ∈ rawLines (r.drop (i + 1)), l.length < limit := by
          intro l hl
          exact hfit l (by rw [hraw]; simp [hl])
        have hdl : (r.drop (i + 1)).length < f := by simp; omega
        simp only [Scanner.tokens, Scan_of_index_some limit r i hi hilim]
        rw [ih _ hdl hrest]
        simp [lineTokens, hraw]
      | none =>
        have hraw := rawLines_of_index_none r hi hnil
        have hl : r.length < limit := hfit r (by rw [hraw]; simp)
        simp only [Scanner.tokens, Scan_of_index_none limit r hi hnil hl]
        cases f with
        | zero => 
          have : 0 < r.length := List.length_pos.mpr hnil
          omega
        | succ g => simp [Scanner.tokens, Scan_nil, lineTokens, hraw]

theorem scannedLines_eq_lineTokens (r : Bytes) (h : linesFit r) :
    scannedLines r = lineTokens r :=
  tokens_eq_lineTokens maxScanTokenSize (r.length + 1) r (Nat.lt_succ_self _) h


/-! ## Lemmas: bytewise order -/

theorem append_lt_append_iff (p x y : Bytes) : p ++ x < p ++ y ↔ x < y := by
  induction p with
  | nil => simp
  | cons a p ih =>
    show List.Lex (· < ·) (a :: (p ++ x)) (a :: (p ++ y)) ↔ _
    rw [List.Lex.cons_iff]
    exact ih

theorem append_le_append_iff (p x y : Bytes) : p ++ x ≤ p ++ y ↔ x ≤ y := by
  rw [le_iff_lt_or_eq, le_iff_lt_or_eq, append_lt_append_iff]
  simp

/-! ## Lemmas: keys and stream prefixes -/

theorem entry_key (p t : Bytes) : (entry p t).key = p ++ colon ++ t := rfl

theorem entry_value (p t : Bytes) : (entry p t).value = t := rfl

theorem entry_isPrefixOf (p t : Bytes) : (p ++ colon).isPrefixOf (entry p t).key = true := by
  rw [List.isPrefixOf_iff_prefix, entry_key]
  exact List.prefix_append _ _

theorem entry_key_inj (p t u : Bytes) (h : (entry p t).key = (entry p u).key) : t = u := by
  rw [entry_key, entry_key] at h
  exact List.append_cancel_left h

theorem stream_prefixes_comparable (q1 q2 k : Bytes)
    (h1 : q1.isPrefixOf k = true) (h2 : q2.isPrefixOf k = true) : q1 <+: q2 ∨ q2 <+: q1 := by
  rw [List.isPrefixOf_iff_prefix] at h1 h2
  rcases Nat.le_total q1.length q2.length with h | h
  · exact Or.inl (List.prefix_of_prefix_length_le h1 h2 h)
  · exact Or.inr (List.prefix_of_prefix_length_le h2 h1 h)

theorem colon_free_initial (p1 : Bytes) :
    ∀ p2 : Bytes, 58 ∉ p1 → 58 ∉ p2 → (p1 ++ colon) <+: (p2 ++ colon) → p1 = p2 := by
  induction p1 with
  | nil =>
    intro p2 _ h2 h
    cases p2 with
    | nil => rfl
    | cons b p2 =>
      simp only [colon, List.nil_append, List.cons_append, List.cons_prefix_cons] at h
      exact absurd (by rw [← h.1]; simp) h2
  | cons a p1 ih =>
    intro p2 h1 h2 h
    cases p2 with
    | nil =>
      simp only [colon, List.nil_append, List.cons_append, List.cons_prefix_cons] at h
      exact absurd (by rw [h.1]; simp) h1
    | cons b p2 =>
      simp only [List.cons_append, List.cons_prefix_cons] at h
      have h1' : 58 ∉ p1 := fun hm => h1 (List.mem_cons_of_mem _ hm)
      have h2' : 58 ∉ p2 := fun hm => h2 (List.mem_cons_of_mem _ hm)
      rw [h.1, ih p2 h1' h2' h.2]

/-! ## Lemmas: the engine -/

theorem mem_set (db : DB) (e kv : KV) :
    kv ∈ db.set e ↔ kv = e ∨ (kv ∈ db ∧ kv.key ≠ e.key) := by
  simp [DB.set, List.mem_filter]

theorem nodup_set (db : DB) (e : KV) (h : db.Nodup) : (db.set e).Nodup := by
  unfold DB.set
  rw [List.nodup_cons]
  refine ⟨?_, h.filter _⟩
  simp [List.mem_filter]

theorem nodup_foldl_set (es : List KV) :
    ∀ db : DB, db.Nodup → (es.foldl DB.set db).Nodup := by
  induction es with
  | nil => intro db h; exact h
  | cons e es ih => intro db h; exact ih _ (nodup_set db e h)

theorem under_set_in (db : DB) (q : Bytes) (e : KV) (h : q.isPrefixOf e.key = true) :
    (db.set e).under q = (db.under q).set e := by
  simp only [DB.set, DB.under, List.filter_cons, h, if_true]
  rw [List.filter_comm]

theorem under_set_out (db : DB) (q : Bytes) (e : KV) (h : q.isPrefixOf e.key = false) :
    (db.set e).under q = db.under q := by
  simp only [DB.set, DB.under, List.filter_cons, h]
  rw [List.filter_filter]
  apply List.filter_congr
  intro x _
  by_cases hx : q.isPrefixOf x.key = true
  · have : x.key ≠ e.key := by
      intro hk
      rw [hk, h] at hx
      exact Bool.noConfusion hx
    simp [hx, this]
  · simp [hx]

theorem under_foldl_set_in (q : Bytes) (es : List KV)
    (h : ∀ e ∈ es, q.isPrefixOf e.key = true) :
    ∀ db : DB, (es.foldl DB.set db).under q = es.foldl DB.set (db.under q) := by
  induction es with
  | nil => intro db; rfl
  | cons e es ih =>
    intro db
    simp only [List.foldl_cons]
    rw [ih (fun x hx => h x (List.mem_cons_of_mem _ hx)),
      under_set_in db q e (h e (List.mem_cons_self _ _))]

theorem under_foldl_set_out (q : Bytes) (es : List KV)
    (h : ∀ e ∈ es, q.isPrefixOf e.key = false) :
    ∀ db : DB, (es.foldl DB.set db).under q = db.under q := by
  induction es with
  | nil => intro db; rfl
  | cons e es ih =>
    intro db
    simp only [List.foldl_cons]
    rw [ih (fun x hx => h x (List.mem_cons_of_mem _ hx)),
      under_set_out db q e (h e (List.mem_cons_self _ _))]

theorem under_DropPrefix_self (db : DB) (q : Bytes) : (db.DropPrefix q).under q = [] := by
  simp only [DB.DropPrefix, DB.under, List.filter_filter]
  rw [List.filter_eq_nil_iff]
  intro x _
  simp

theorem under_DropPrefix_other (db : DB) (q1 q2 : Bytes)
    (h : ∀ k : Bytes, q1.isPrefixOf k = true → q2.isPrefixOf k = true → False) :
    (db.DropPrefix q1).under q2 = db.under q2 := by
  simp only [DB.DropPrefix, DB.under, List.filter_filter]
  apply List.filter_congr
  intro x _
  by_cases hx : q2.isPrefixOf x.key = true
  · have : q1.isPrefixOf x.key = false := by
      cases h1 : q1.isPrefixOf x.key with
      | false => rfl
      | true => exact absurd hx (fun h2 => h x.key h1 h2)
    simp [hx, this]
  · simp [hx]

theorem mem_under (db : DB) (q : Bytes) (kv : KV) :
    kv ∈ db.under q ↔ kv ∈ db ∧ q.isPrefixOf kv.key = true := by
  simp [DB.under, List.mem_filter]

theorem mem_foldl_set_entries (p : Bytes) (ts : List Bytes) :
    ∀ (db : DB) (kv : KV),
      kv ∈ (ts.map (entry p)).foldl DB.set db ↔
        (∃ t ∈ ts, kv = entry p t) ∨ (kv ∈ db ∧ ∀ t ∈ ts, kv.key ≠ (entry p t).key) := by
  induction ts with
  | nil => intro db kv; simp
  | cons t ts ih =>
    intro db kv
    simp only [List.map_cons, List.foldl_cons]
    rw [ih, mem_set]
    constructor
    · rintro (⟨u, hu, rfl⟩ | ⟨hkv | ⟨hdb, hk⟩, hall⟩)
      · exact Or.inl ⟨u, List.mem_cons_of_mem _ hu, rfl⟩
      · exact Or.inl ⟨t, List.mem_cons_self _ _, hkv⟩
      · refine Or.inr ⟨hdb, ?_⟩
        intro u hu
        rcases List.mem_cons.mp hu with rfl | hu
        · exact hk
        · exact hall u hu
    · rintro (⟨u, hu, rfl⟩ | ⟨hdb, hall⟩)
      · rcases List.mem_cons.mp hu with rfl | hu
        · by_cases hex : ∃ v ∈ ts, (entry p u).key = (entry p v).key
          · obtain ⟨v, hv, hkey⟩ := hex
            have := entry_key_inj p u v hkey
            subst this
            exact Or.inl ⟨u, hv, rfl⟩
          · refine Or.inr ⟨Or.inl rfl, ?_⟩
            intro v hv hkey
            exact hex ⟨v, hv, hkey⟩
        · exact Or.inl ⟨u, hu, rfl⟩
      · refine Or.inr ⟨Or.inr ⟨hdb, hall t (List.mem_cons_self _ _)⟩, ?_⟩
        intro u hu
        exact hall u (List.mem_cons_of_mem _ hu)

theorem mem_foldl_set_entries_nil (p : Bytes) (ts : List Bytes) (kv : KV) :
    kv ∈ (ts.map (entry p)).foldl DB.set [] ↔ ∃ t ∈ ts, kv = entry p t := by
  rw [mem_foldl_set_entries]
  simp

/-- Reading back a duplicate-free set of entries of one prefix: the values come
out strictly ascending, and they are the lines of the entries. -/
theorem sorted_values (p : Bytes) (D : DB) (ts : List Bytes) (hnd : D.Nodup)
    (hmem : ∀ kv, kv ∈ D ↔ ∃ t ∈ ts, kv = entry p t) :
    ((D.insertionSort (fun a b => a.key ≤ b.key)).map KV.value).Sorted (· < ·) ∧
      ∀ t, t ∈ (D.insertionSort (fun a b => a.key ≤ b.key)).map KV.value ↔ t ∈ ts := by
  haveI : IsTotal KV (fun a b => a.key ≤ b.key) := ⟨fun a b => le_total a.key b.key⟩
  haveI : IsTrans KV (fun a b => a.key ≤ b.key) := ⟨fun a b c h1 h2 => le_trans h1 h2⟩
  have hperm := List.perm_insertionSort (fun (a b : KV) => a.key ≤ b.key) D
  have hsorted := List.sorted_insertionSort (fun (a b : KV) => a.key ≤ b.key) D
  have hform : ∀ kv ∈ D.insertionSort (fun a b => a.key ≤ b.key), kv = entry p kv.value := by
    intro kv hkv
    obtain ⟨t, _, rfl⟩ := (hmem kv).mp (hperm.mem_iff.mp hkv)
    rfl
  constructor
  · apply List.Sorted.lt_of_le
    · show List.Pairwise _ _
      rw [List.pairwise_map]
      refine List.Pairwise.imp_of_mem ?_ hsorted
      intro a b ha hb hab
      rw [hform a ha, hform b hb, entry_key, entry_key, append_le_append_iff] at hab
      exact hab
    · apply List.Nodup.map_on
      · intro a ha b hb hv
        rw [hform a ha, hform b hb, hv]
      · exact hperm.nodup_iff.mpr hnd
  · intro t
    rw [List.mem_map]
    constructor
    · rintro ⟨kv, hkv, rfl⟩
      obtain ⟨u, hu, rfl⟩ := (hmem kv).mp (hperm.mem_iff.mp hkv)
      exact hu
    · intro ht
      exact ⟨entry p t, hperm.mem_iff.mpr ((hmem _).mpr ⟨t, ht, rfl⟩), rfl⟩

/-- Two strictly ascending lists with the same members are equal. -/
theorem sorted_unique (l1 l2 : List Bytes) (h1 : l1.Sorted (· < ·)) (h2 : l2.Sorted (· < ·))
    (h : ∀ t, t ∈ l1 ↔ t ∈ l2) : l1 = l2 :=
  List.eq_of_perm_of_sorted ((List.perm_ext_iff_of_nodup h1.nodup h2.nodup).mpr h) h1 h2


/-! ## Lemmas: the guard maps -/

theorem get_set_delete (m : BoolMap) (p q : Bytes) :
    ((m.set p true).delete p).get q = if q = p then false else m.get q := by
  by_cases h : q = p <;> simp [BoolMap.get, BoolMap.set, BoolMap.delete, h]

theorem set_delete_other (m : BoolMap) (p q : Bytes) (h : q ≠ p) :
    ((m.set p true).delete p) q = m q := by
  simp [BoolMap.set, BoolMap.delete, h]

theorem acquireWrite_free (b : Badger) (p : Bytes)
    (hw : b.writing.get p = false) (hr : b.reading.get p = false) :
    b.acquireWrite p = .ok { b with writing := b.writing.set p true } := by
  simp [Badger.acquireWrite, hw, hr]

theorem acquireRead_free (b : Badger) (p : Bytes)
    (hw : b.writing.get p = false) (hr : b.reading.get p = false) :
    b.acquireRead p = .ok { b with reading := b.reading.set p true } := by
  simp [Badger.acquireRead, hw, hr]

theorem Write_free (ctx : Context) (env : Faults) (b : Badger) (p r : Bytes)
    (hw : b.writing.get p = false) (hr : b.reading.get p = false) :
    Badger.Write ctx env b p r =
      ⟨(writeBody ctx env b.db p r).err,
        ⟨(b.writing.set p true).delete p, b.reading, (writeBody ctx env b.db p r).db⟩,
        some (writeBody ctx env b.db p r).batch⟩ := by
  simp [Badger.Write, acquireWrite_free b p hw hr, Badger.releaseWrite]

theorem Read_free (ctx : Context) (env : Faults) (b : Badger) (p : Bytes) (w : Sink)
    (hw : b.writing.get p = false) (hr : b.reading.get p = false) :
    Badger.Read ctx env b p w =
      ⟨(Orchestrate ctx env b.db (p ++ colon) w).1,
        ⟨b.writing, (b.reading.set p true).delete p, b.db⟩,
        (Orchestrate ctx env b.db (p ++ colon) w).2⟩ := by
  simp [Badger.Read, acquireRead_free b p hw hr, Badger.releaseRead]

theorem Write_held_writing (ctx : Context) (env : Faults) (b : Badger) (p r : Bytes)
    (hw : b.writing.get p = true) :
    Badger.Write ctx env b p r = ⟨some .ErrWriting, b, none⟩ := by
  simp [Badger.Write, Badger.acquireWrite, hw]

theorem Write_held_reading (ctx : Context) (env : Faults) (b : Badger) (p r : Bytes)
    (hw : b.writing.get p = false) (hr : b.reading.get p = true) :
    Badger.Write ctx env b p r = ⟨some .ErrReading, b, none⟩ := by
  simp [Badger.Write, Badger.acquireWrite, hw, hr]

theorem Read_held_writing (ctx : Context) (env : Faults) (b : Badger) (p : Bytes) (w : Sink)
    (hw : b.writing.get p = true) :
    Badger.Read ctx env b p w = ⟨some .ErrWriting, b, w⟩ := by
  simp [Badger.Read, Badger.acquireRead, hw]

theorem Read_held_reading (ctx : Context) (env : Faults) (b : Badger) (p : Bytes) (w : Sink)
    (hw : b.writing.get p = false) (hr : b.reading.get p = true) :
    Badger.Read ctx env b p w = ⟨some .ErrReading, b, w⟩ := by
  simp [Badger.Read, Badger.acquireRead, hw, hr]

/-! ## Lemmas: the stream and the sink -/

theorem batches_join (n : Nat) : ∀ l : List KV, (batches n l).flatten = l := by
  intro l
  induction l with
  | nil => rfl
  | cons x xs ih =>
    simp only [batches]
    cases hb : batches n xs with
    | nil =>
      rw [hb] at ih
      simp at ih
      simp [← ih]
    | cons c cs =>
      rw [hb] at ih
      by_cases hc : c.length < n
      · simp [hc, ← ih]
      · simp [hc, ← ih]

theorem emit_nil : emit [] = [] := rfl

theorem emit_cons (l : Bytes) (ls : List Bytes) : emit (l :: ls) = l ++ newLine ++ emit ls := by
  simp [emit]

theorem emit_append (l1 l2 : List Bytes) : emit (l1 ++ l2) = emit l1 ++ emit l2 := by
  simp [emit]

theorem Send_buffer (f : Bool) :
    ∀ (l : List KV) (out : Bytes),
      Send l ⟨out, none, f⟩ = (none, ⟨out ++ emit (l.map KV.value), none, f⟩) := by
  intro l
  induction l with
  | nil => intro out; simp [Send, emit]
  | cons kv rest ih =>
    intro out
    simp only [Send, Sink.Write]
    simp [ih, emit_cons]

theorem sendBatches_buffer (ctx : Context) (hctx : ctx.doneAfter = none) (f : Bool) :
    ∀ (ls : List (List KV)) (i : Nat) (out : Bytes),
      sendBatches ctx i ls ⟨out, none, f⟩ =
        (none, ⟨out ++ emit (ls.flatten.map KV.value), none, f⟩) := by
  intro ls
  induction ls with
  | nil => intro i out; simp [sendBatches, emit]
  | cons l ls ih =>
    intro i out
    have hd : ctx.done i = false := by simp [Context.done, hctx]
    simp only [sendBatches, hd, Send_buffer, ih]
    simp [emit_append]

theorem Orchestrate_buffer (ctx : Context) (env : Faults) (db : DB) (q out : Bytes) (f : Bool)
    (hctx : ctx.doneAfter = none) (hs : env.stream = false) :
    Orchestrate ctx env db q ⟨out, none, f⟩ =
      (none, ⟨out ++ emit ((db.scan q).map KV.value), none, f⟩) := by
  simp [Orchestrate, hs, sendBatches_buffer ctx hctx, batches_join]

/-! ## Lemmas: the write loop -/

theorem writeLoop_exhausted (ctx : Context) (env : Faults) (p : Bytes) :
    ∀ (fuel i : Nat) (rest : Bytes) (batch b1 : WriteBatch),
      writeLoop ctx env p fuel i rest batch = .exhausted b1 →
      b1 = ⟨batch.staged ++ (Scanner.tokens maxScanTokenSize fuel rest).map (entry p),
        batch.state⟩ := by
  intro fuel
  induction fuel with
  | zero =>
    intro i rest batch b1 h
    simp only [writeLoop, LoopEnd.exhausted.injEq] at h
    subst h
    simp [Scanner.tokens]
  | succ f ih =>
    intro i rest batch b1 h
    simp only [writeLoop, Scanner.tokens] at h ⊢
    cases hs : Scanner.Scan maxScanTokenSize rest with
    | none =>
      rw [hs] at h
      simp only [LoopEnd.exhausted.injEq] at h
      subst h
      simp
    | some pr =>
      obtain ⟨line, rest1⟩ := pr
      rw [hs] at h
      simp only at h
      by_cases hd : ctx.done i = true
      · simp [hd] at h
      · by_cases hse : env.setEntry = some i
        · simp [hd, hse] at h
        · simp only [hd, hse, if_false, Bool.false_eq_true] at h
          have := ih _ _ _ _ h
          rw [this]
          simp [WriteBatch.SetEntry, entry]

theorem writeLoop_ok (ctx : Context) (env : Faults) (p : Bytes)
    (hctx : ctx.doneAfter = none) (hse : env.setEntry = none) :
    ∀ (fuel i : Nat) (rest : Bytes) (batch : WriteBatch),
      writeLoop ctx env p fuel i rest batch =
        .exhausted ⟨batch.staged ++ (Scanner.tokens maxScanTokenSize fuel rest).map (entry p),
          batch.state⟩ := by
  intro fuel
  induction fuel with
  | zero => intro i rest batch; simp [writeLoop, Scanner.tokens]
  | succ f ih =>
    intro i rest batch
    have hd : ctx.done i = false := by simp [Context.done, hctx]
    simp only [writeLoop, Scanner.tokens]
    cases hs : Scanner.Scan maxScanTokenSize rest with
    | none => simp
    | some pr =>
      obtain ⟨line, rest1⟩ := pr
      simp only [hd, hse, ih]
      simp [WriteBatch.SetEntry, entry]

theorem writeBody_success (ctx : Context) (env : Faults) (db : DB) (p r : Bytes)
    (h : (writeBody ctx env db p r).err = none) :
    (writeBody ctx env db p r).db = written db p r ∧
      (writeBody ctx env db p r).batch.state = .flushed := by
  unfold writeBody at h ⊢
  by_cases hdp : env.dropPrefix = true
  · simp [hdp] at h
  · simp only [hdp] at h ⊢
    cases hl : writeLoop ctx env p (r.length + 1) 0 r WriteBatch.new with
    | returned e b1 => simp [hl] at h
    | exhausted b1 =>
      have hb := writeLoop_exhausted ctx env p _ _ _ _ _ hl
      by_cases hf : env.flush = true
      · simp [hl, hf] at h
      · simp [hf, hb, WriteBatch.Flush, WriteBatch.new, written, scannedLines]

theorem writeBody_ok (ctx : Context) (env : Faults) (db : DB) (p r : Bytes)
    (hctx : ctx.doneAfter = none) (hdp : env.dropPrefix = false)
    (hse : env.setEntry = none) (hf : env.flush = false) :
    (writeBody ctx env db p r).err = none := by
  simp [writeBody, hdp, writeLoop_ok ctx env p hctx hse, hf, WriteBatch.Flush]

theorem writeBody_db_cases (ctx : Context) (env : Faults) (db : DB) (p r : Bytes) :
    (writeBody ctx env db p r).db = db ∨
      (writeBody ctx env db p r).db = db.DropPrefix (p ++ colon) ∨
      (writeBody ctx env db p r).db = written db p r := by
  unfold writeBody
  by_cases hdp : env.dropPrefix = true
  · simp [hdp]
  · simp only [hdp]
    cases hl : writeLoop ctx env p (r.length + 1) 0 r WriteBatch.new with
    | returned e b1 => simp
    | exhausted b1 =>
      have hb := writeLoop_exhausted ctx env p _ _ _ _ _ hl
      by_cases hf : env.flush = true
      · simp [hf]
      · right; right
        simp [hf, hb, WriteBatch.Flush, WriteBatch.new, written, scannedLines]

theorem under_written_self (db : DB) (p r : Bytes) :
    (written db p r).under (p ++ colon) = ((scannedLines r).map (entry p)).foldl DB.set [] := by
  unfold written
  rw [under_foldl_set_in, under_DropPrefix_self]
  intro e he
  obtain ⟨t, _, rfl⟩ := List.mem_map.mp he
  exact entry_isPrefixOf p t

theorem under_written_other (db : DB) (p r q : Bytes)
    (h : ∀ k : Bytes, (p ++ colon).isPrefixOf k = true → q.isPrefixOf k = true → False) :
    (written db p r).under q = db.under q := by
  unfold written
  rw [under_foldl_set_out, under_DropPrefix_other _ _ _ h]
  intro e he
  obtain ⟨t, _, rfl⟩ := List.mem_map.mp he
  cases hq : q.isPrefixOf (entry p t).key with
  | false => rfl
  | true => exact absurd hq (fun hq => h _ (entry_isPrefixOf p t) hq)


/-- The fuel of the write loop never runs out: any fuel above the length of the
unread input gives the same result. -/
theorem writeLoop_fuel (ctx : Context) (env : Faults) (p : Bytes) :
    ∀ (fuel i : Nat) (rest : Bytes) (batch : WriteBatch), rest.length < fuel →
      writeLoop ctx env p fuel i rest batch =
        writeLoop ctx env p (rest.length + 1) i rest batch := by
  intro fuel
  induction fuel using Nat.strong_induction_on with
  | _ fuel ih =>
    intro i rest batch hr
    cases fuel with
    | zero => omega
    | succ f =>
      simp only [writeLoop]
      cases hs : Scanner.Scan maxScanTokenSize rest with
      | none => rfl
      | some pr =>
        obtain ⟨t, r1⟩ := pr
        have hl := Scan_length_lt maxScanTokenSize rest t r1 hs
        simp only
        rw [ih f (by omega) _ r1 _ (by omega), ih rest.length (by omega) _ r1 _ hl]

/-! ## Lemmas: what a call returns -/

theorem Send_not_conflict :
    ∀ (l : List KV) (w : Sink) (e : Error), (Send l w).1 = some e → e.isConflict = false := by
  intro l
  induction l with
  | nil => intro w e h; simp [Send] at h
  | cons kv rest ih =>
    intro w e h
    simp only [Send] at h
    split at h
    · simp at h; subst h; rfl
    · split at h
      · simp at h; subst h; rfl
      · split at h
        · simp at h; subst h; rfl
        · split at h
          · simp at h; subst h; rfl
          · exact ih _ _ h

theorem sendBatches_not_conflict (ctx : Context) :
    ∀ (ls : List (List KV)) (i : Nat) (w : Sink) (e : Error),
      (sendBatches ctx i ls w).1 = some e → e.isConflict = false := by
  intro ls
  induction ls with
  | nil => intro i w e h; simp [sendBatches] at h
  | cons l ls ih =>
    intro i w e h
    simp only [sendBatches] at h
    split at h
    · simp at h; subst h; rfl
    · split at h
      · next e1 w1 hs =>
        simp at h
        subst h
        exact Send_not_conflict l w e1 (by rw [hs])
      · exact ih _ _ _ h

theorem Orchestrate_not_conflict (ctx : Context) (env : Faults) (db : DB) (q : Bytes) (w : Sink)
    (e : Error) (h : (Orchestrate ctx env db q w).1 = some e) : e.isConflict = false := by
  unfold Orchestrate at h
  split at h
  · simp at h; subst h; rfl
  · exact sendBatches_not_conflict ctx _ _ _ _ h

theorem writeLoop_not_conflict (ctx : Context) (env : Faults) (p : Bytes) :
    ∀ (fuel i : Nat) (rest : Bytes) (batch b1 : WriteBatch) (e : Error),
      writeLoop ctx env p fuel i rest batch = .returned e b1 → e.isConflict = false := by
  intro fuel
  induction fuel with
  | zero => intro i rest batch b1 e h; simp [writeLoop] at h
  | succ f ih =>
    intro i rest batch b1 e h
    simp only [writeLoop] at h
    split at h
    · simp at h
    · split at h
      · simp at h; rw [← h.1]; rfl
      · split at h
        · simp at h; rw [← h.1]; rfl
        · exact ih _ _ _ _ _ h

theorem writeBody_not_conflict (ctx : Context) (env : Faults) (db : DB) (p r : Bytes)
    (e : Error) (h : (writeBody ctx env db p r).err = some e) : e.isConflict = false := by
  unfold writeBody at h
  simp only at h
  split at h
  · simp at h; subst h; rfl
  · split at h
    · next e1 b1 hl =>
      simp at h
      subst h
      exact writeLoop_not_conflict ctx env p _ _ _ _ _ _ hl
    · split at h
      · simp at h; subst h; rfl
      · simp at h

theorem Write_success (ctx : Context) (env : Faults) (b : Badger) (p r : Bytes)
    (h : (Badger.Write ctx env b p r).err = none) :
    b.writing.get p = false ∧ b.reading.get p = false ∧
      (Badger.Write ctx env b p r).store =
        ⟨(b.writing.set p true).delete p, b.reading, written b.db p r⟩ := by
  cases hw : b.writing.get p with
  | true => rw [Write_held_writing ctx env b p r hw] at h; simp at h
  | false =>
    cases hr : b.reading.get p with
    | true => rw [Write_held_reading ctx env b p r hw hr] at h; simp at h
    | false =>
      rw [Write_free ctx env b p r hw hr] at h ⊢
      simp only at h
      simp [(writeBody_success ctx env b.db p r h).1]

theorem Write_ok (b : Badger) (p r : Bytes)
    (hw : b.writing.get p = false) (hr : b.reading.get p = false) :
    (Badger.Write Context.Background Faults.none b p r).err = none := by
  rw [Write_free _ _ b p r hw hr]
  exact writeBody_ok _ _ _ _ _ rfl rfl rfl rfl

theorem Orchestrate_congr (ctx : Context) (env : Faults) (db1 db2 : DB) (q : Bytes) (w : Sink)
    (h : db1.under q = db2.under q) :
    Orchestrate ctx env db1 q w = Orchestrate ctx env db2 q w := by
  have : db1.scan q = db2.scan q := by
    show (db1.under q).insertionSort _ = (db2.under q).insertionSort _
    rw [h]
  simp [Orchestrate, this]

/-- Reading a prefix whose slot is free and whose entries are the upserts of the
lines `ts`: the read succeeds and sends the distinct lines, strictly ascending,
each followed by a newline. -/
theorem read_back (ctx : Context) (env : Faults) (b : Badger) (p : Bytes) (ts : List Bytes)
    (hw : b.writing.get p = false) (hr : b.reading.get p = false)
    (hD : b.db.under (p ++ colon) = (ts.map (entry p)).foldl DB.set [])
    (hctx : ctx.doneAfter = none) (hs : env.stream = false) :
    (Badger.Read ctx env b p Sink.buffer).err = none ∧
      ∃ L : List Bytes, L.Sorted (· < ·) ∧ (∀ t, t ∈ L ↔ t ∈ ts) ∧
        (Badger.Read ctx env b p Sink.buffer).sink.out = emit L := by
  rw [Read_free ctx env b p _ hw hr]
  have ho := Orchestrate_buffer ctx env b.db (p ++ colon) [] false hctx hs
  have hsv := sorted_values p (b.db.under (p ++ colon)) ts
    (by rw [hD]; exact nodup_foldl_set _ _ List.nodup_nil)
    (by intro kv; rw [hD]; exact mem_foldl_set_entries_nil p ts kv)
  refine ⟨?_, (List.map KV.value (b.db.scan (p ++ colon))), hsv.1, hsv.2, ?_⟩
  · show (Orchestrate ctx env b.db (p ++ colon) Sink.buffer).1 = none
    unfold Sink.buffer
    rw [ho]
  · show (Orchestrate ctx env b.db (p ++ colon) Sink.buffer).2.out = _
    unfold Sink.buffer
    rw [ho]
    simp

/-- A successful `Write` followed by a faultless `Read` of the same prefix: the read
sends the distinct scanned lines, strictly ascending. -/
theorem write_read_back (ctx ctx2 : Context) (env env2 : Faults) (b : Badger) (p r : Bytes)
    (h : (Badger.Write ctx env b p r).err = none)
    (hctx : ctx2.doneAfter = none) (hs : env2.stream = false) :
    (Badger.Read ctx2 env2 (Badger.Write ctx env b p r).store p Sink.buffer).err = none ∧
      ∃ L : List Bytes, L.Sorted (· < ·) ∧ (∀ t, t ∈ L ↔ t ∈ scannedLines r) ∧
        (Badger.Read ctx2 env2 (Badger.Write ctx env b p r).store p Sink.buffer).sink.out =
          emit L := by
  obtain ⟨hw, hr, hst⟩ := Write_success ctx env b p r h
  rw [hst]
  exact read_back ctx2 env2 ⟨(b.writing.set p true).delete p, b.reading, written b.db p r⟩ p
    (scannedLines r) (by simp [get_set_delete]) hr (under_written_self b.db p r) hctx hs

/-! ## Lemmas: texts made of lines -/

theorem rawLines_append_newline (rest : Bytes) :
    ∀ l : Bytes, 10 ∉ l → rawLines (l ++ 10 :: rest) = l :: rawLines rest := by
  intro l
  induction l with
  | nil => intro _; simp [rawLines]
  | cons a l ih =>
    intro h
    have ha : a ≠ 10 := fun hc => h (by rw [hc]; exact List.mem_cons_self _ _)
    have hl : 10 ∉ l := fun hc => h (List.mem_cons_of_mem _ hc)
    simp [rawLines, ha, ih hl]

theorem rawLines_emit :
    ∀ lines : List Bytes, (∀ l ∈ lines, 10 ∉ l) → rawLines (emit lines) = lines := by
  intro lines
  induction lines with
  | nil => intro _; rfl
  | cons l ls ih =>
    intro h
    rw [emit_cons]
    show rawLines (l ++ [10] ++ emit ls) = _
    rw [List.append_assoc, List.singleton_append,
      rawLines_append_newline _ l (h l (List.mem_cons_self _ _)),
      ih (fun x hx => h x (List.mem_cons_of_mem _ hx))]

theorem dropCR_of_no_cr (l : Bytes) (h : l.getLast? ≠ some 13) : dropCR l = l := by
  simp [dropCR, h]

theorem scannedLines_emit (lines : List Bytes)
    (h : ∀ l ∈ lines, 10 ∉ l ∧ l.getLast? ≠ some 13 ∧ l.length < maxScanTokenSize) :
    scannedLines (emit lines) = lines := by
  have hraw := rawLines_emit lines (fun l hl => (h l hl).1)
  rw [scannedLines_eq_lineTokens]
  · rw [lineTokens, hraw]
    conv_rhs => rw [← List.map_id lines]
    apply List.map_congr_left
    intro l hl
    exact dropCR_of_no_cr l (h l hl).2.1
  · intro l hl
    rw [hraw] at hl
    exact (h l hl).2.2


/-! ## Lemmas: isolation -/

theorem Read_congr (ctx : Context) (env : Faults) (b1 b2 : Badger) (q : Bytes) (w : Sink)
    (hw : b1.writing.get q = b2.writing.get q) (hr : b1.reading.get q = b2.reading.get q)
    (hdb : b1.db.under (q ++ colon) = b2.db.under (q ++ colon)) :
    (Badger.Read ctx env b1 q w).err = (Badger.Read ctx env b2 q w).err ∧
      (Badger.Read ctx env b1 q w).sink = (Badger.Read ctx env b2 q w).sink := by
  cases h2 : b2.writing.get q with
  | true =>
    rw [Read_held_writing ctx env b1 q w (hw.trans h2), Read_held_writing ctx env b2 q w h2]
    exact ⟨rfl, rfl⟩
  | false =>
    cases h3 : b2.reading.get q with
    | true =>
      rw [Read_held_reading ctx env b1 q w (hw.trans h2) (hr.trans h3),
        Read_held_reading ctx env b2 q w h2 h3]
      exact ⟨rfl, rfl⟩
    | false =>
      rw [Read_free ctx env b1 q w (hw.trans h2) (hr.trans h3), Read_free ctx env b2 q w h2 h3,
        Orchestrate_congr ctx env b1.db b2.db (q ++ colon) w hdb]
      exact ⟨rfl, rfl⟩

theorem Write_frame (ctx : Context) (env : Faults) (b : Badger) (p1 p2 r : Bytes)
    (h : Independent p1 p2) :
    (Badger.Write ctx env b p1 r).store.writing.get p2 = b.writing.get p2 ∧
      (Badger.Write ctx env b p1 r).store.reading.get p2 = b.reading.get p2 ∧
      (Badger.Write ctx env b p1 r).store.db.under (p2 ++ colon) = b.db.under (p2 ++ colon) := by
  have hdisj : ∀ k : Bytes, (p1 ++ colon).isPrefixOf k = true →
      (p2 ++ colon).isPrefixOf k = true → False :=
    fun k h1 h2 => (stream_prefixes_comparable _ _ k h1 h2).elim h.1 h.2
  have hne : p2 ≠ p1 := by
    rintro rfl
    exact h.1 (List.prefix_refl _)
  cases hw : b.writing.get p1 with
  | true => rw [Write_held_writing ctx env b p1 r hw]; exact ⟨rfl, rfl, rfl⟩
  | false =>
    cases hr : b.reading.get p1 with
    | true => rw [Write_held_reading ctx env b p1 r hw hr]; exact ⟨rfl, rfl, rfl⟩
    | false =>
      rw [Write_free ctx env b p1 r hw hr]
      refine ⟨by simp [get_set_delete, hne], rfl, ?_⟩
      show (writeBody ctx env b.db p1 r).db.under (p2 ++ colon) = _
      rcases writeBody_db_cases ctx env b.db p1 r with hc | hc | hc
      · rw [hc]
      · rw [hc, under_DropPrefix_other _ _ _ hdisj]
      · rw [hc, under_written_other _ _ _ _ hdisj]

theorem independent_of_colon_free (p1 p2 : Bytes) (h1 : 58 ∉ p1) (h2 : 58 ∉ p2)
    (hne : p1 ≠ p2) : Independent p1 p2 :=
  ⟨fun h => hne (colon_free_initial p1 p2 h1 h2 h),
    fun h => hne (colon_free_initial p2 p1 h2 h1 h).symm⟩

/-! ## The claims: what is written is what is read -/

/-- C1, as stated, fails: the single line `"a\r"` has no newline in it, yet writing
`"a\r\n"` to a fresh store and reading the prefix back yields `"a\n"`, not
`"a\r\n"`: the scanner drops the carriage return. -/
theorem round_trip_fails_on_carriage_return :
    (∀ l ∈ [[97, 13]], 10 ∉ l) ∧ ascii "p" ≠ [] ∧
      (writeThenRead Badger.fresh (ascii "p") (emit [[97, 13]]) (ascii "p")).sink.out
        = ascii "a\n" ∧
      ¬ RoundTrip (ascii "p") [[97, 13]] := by
  refine ⟨by decide, by decide, by decide, ?_⟩
  rintro ⟨_, _, L, hs, hm, hout⟩
  have hL : L = [[97, 13]] :=
    sorted_unique L [[97, 13]] hs (List.sorted_singleton _) hm
  subst hL
  exact absurd hout (by decide)

/-- C1, amended: for every prefix and every finite collection of lines that contain
no newline, do not end in a carriage return and are shorter than the scanner's token
limit, writing the lines (each ended by one newline) to a fresh store succeeds, and
reading the prefix back succeeds and yields exactly the distinct lines, strictly
ascending bytewise, each ended by one newline. -/
theorem round_trip (p : Bytes) (lines : List Bytes)
    (h : ∀ l ∈ lines, 10 ∉ l ∧ l.getLast? ≠ some 13 ∧ l.length < maxScanTokenSize) :
    RoundTrip p lines := by
  have hok := Write_ok Badger.fresh p (emit lines) rfl rfl
  have hrd := write_read_back Context.Background Context.Background Faults.none Faults.none
    Badger.fresh p (emit lines) hok rfl rfl
  rw [scannedLines_emit lines h] at hrd
  exact ⟨hok, hrd.1, hrd.2⟩

/-- The input of `TestBadgerBasic` meets the conditions of `round_trip`, and reads
back as `"hello\nnope\nwoot\n"`. -/
theorem round_trip_witness :
    (∀ l ∈ [ascii "hello", ascii "woot", ascii "woot", ascii "nope"],
        10 ∉ l ∧ l.getLast? ≠ some 13 ∧ l.length < maxScanTokenSize) ∧
      RoundTrip (ascii "testing") [ascii "hello", ascii "woot", ascii "woot", ascii "nope"] ∧
      (writeThenRead Badger.fresh (ascii "testing") (ascii "hello\nwoot\nwoot\nnope\n")
        (ascii "testing")).sink.out = ascii "hello\nnope\nwoot\n" :=
  ⟨by decide, round_trip _ _ (by decide), by decide⟩

/-- What a `Write` that returned `nil` leaves under its prefix, on any store and after
any earlier `Write`: one entry for each distinct line its scanner read, which a
following `Read` sends strictly ascending. -/
theorem replace_scanned (ctx1 ctx2 ctx3 : Context) (env1 env2 env3 : Faults) (b : Badger)
    (p A B : Bytes)
    (hB : (Badger.Write ctx2 env2 (Badger.Write ctx1 env1 b p A).store p B).err = none)
    (hctx : ctx3.doneAfter = none) (hs : env3.stream = false) :
    (∀ kv, kv ∈ (Badger.Write ctx2 env2 (Badger.Write ctx1 env1 b p A).store p B).store.db.under
          (p ++ colon) ↔ ∃ t ∈ scannedLines B, kv = entry p t) ∧
      ((Badger.Write ctx2 env2 (Badger.Write ctx1 env1 b p A).store p B).store.db.under
          (p ++ colon)).Nodup ∧
      (Badger.Read ctx3 env3
          (Badger.Write ctx2 env2 (Badger.Write ctx1 env1 b p A).store p B).store p
          Sink.buffer).err = none ∧
      ∃ L : List Bytes, L.Sorted (· < ·) ∧ (∀ t, t ∈ L ↔ t ∈ scannedLines B) ∧
        (Badger.Read ctx3 env3
          (Badger.Write ctx2 env2 (Badger.Write ctx1 env1 b p A).store p B).store p
          Sink.buffer).sink.out = emit L := by
  have hrd := write_read_back ctx2 ctx3 env2 env3 _ p B hB hctx hs
  obtain ⟨_, _, hst⟩ := Write_success ctx2 env2 _ p B hB
  refine ⟨?_, ?_, hrd.1, hrd.2⟩
  · intro kv
    rw [hst]
    show kv ∈ (written _ p B).under (p ++ colon) ↔ _
    rw [under_written_self]
    exact mem_foldl_set_entries_nil p (scannedLines B) kv
  · rw [hst]
    show ((written _ p B).under (p ++ colon)).Nodup
    rw [under_written_self]
    exact nodup_foldl_set _ _ List.nodup_nil

theorem scannedLines_eq_rawLines (B : Bytes)
    (h : ∀ l ∈ rawLines B, l.getLast? ≠ some 13 ∧ l.length < maxScanTokenSize) :
    scannedLines B = rawLines B := by
  rw [scannedLines_eq_lineTokens B (fun l hl => (h l hl).2), lineTokens]
  conv_rhs => rw [← List.map_id (rawLines B)]
  apply List.map_congr_left
  intro l hl
  exact dropCR_of_no_cr l (h l hl).1

/-- C2, as stated, fails: after writing `"x\ny\n"` and then `"a\r\n"` to one prefix
of a fresh store, both with `nil` returned, the only line of the second input is
`"a\r"`, yet the entry stored is `("f:a", "a")`: the scanner drops the carriage
return. -/
theorem replace_semantics_fails_on_carriage_return :
    rawLines (ascii "a\r\n") = [[97, 13]] ∧
      (Badger.Write Context.Background Faults.none Badger.fresh (ascii "f") (ascii "x\ny\n")).err
        = none ∧
      (Badger.Write Context.Background Faults.none
        (Badger.Write Context.Background Faults.none Badger.fresh (ascii "f")
          (ascii "x\ny\n")).store (ascii "f") (ascii "a\r\n")).err = none ∧
      (Badger.Write Context.Background Faults.none
        (Badger.Write Context.Background Faults.none Badger.fresh (ascii "f")
          (ascii "x\ny\n")).store (ascii "f") (ascii "a\r\n")).store.db
        = [entry (ascii "f") (ascii "a")] ∧
      ¬ Replaces (ascii "f") (ascii "x\ny\n") (ascii "a\r\n") := by
  refine ⟨by decide, by decide, by decide, by decide, ?_⟩
  intro h
  have hiff := (h Context.Background Context.Background Context.Background Faults.none
    Faults.none Faults.none Badger.fresh (by decide) (by decide) rfl rfl).1
    (entry (ascii "f") [97, 13])
  exact absurd (hiff.mpr ⟨[97, 13], by decide, rfl⟩) (by decide)

/-- C2, amended: replace semantics. For every prefix `p` and every two inputs `A` and
`B` such that no line of `B` ends in a carriage return and every line of `B` is shorter
than the scanner's token limit, on any store, after a `Write` of `A` to `p` that
returned `nil` and then a `Write` of `B` to `p` that returned `nil`, the entries stored
under `p` are exactly one entry `(p + ":" + l, l)` for each distinct line `l` of `B`
(nothing of `A` survives unless it is in `B`), and a following `Read` of `p` succeeds
and sends exactly the distinct lines of `B`, strictly ascending, each followed by a
newline. -/
theorem replace_semantics (p A B : Bytes)
    (h : ∀ l ∈ rawLines B, l.getLast? ≠ some 13 ∧ l.length < maxScanTokenSize) :
    Replaces p A B := by
  intro ctx1 ctx2 ctx3 env1 env2 env3 b _ hB hctx hs
  have hscan := scannedLines_eq_rawLines B h
  have hmain := replace_scanned ctx1 ctx2 ctx3 env1 env2 env3 b p A B hB hctx hs
  rw [hscan] at hmain
  exact hmain

/-- The input `"z\n"` meets the conditions of `replace_semantics`; writing `"x\ny\n"`
and then `"z\n"` to one prefix of a fresh store, both writes return `nil` and the
prefix then reads back as `"z\n"`. -/
theorem replace_semantics_witness :
    (∀ l ∈ rawLines (ascii "z\n"), l.getLast? ≠ some 13 ∧ l.length < maxScanTokenSize) ∧
      Replaces (ascii "f") (ascii "x\ny\n") (ascii "z\n") ∧
      (Badger.Write Context.Background Faults.none Badger.fresh (ascii "f") (ascii "x\ny\n")).err
        = none ∧
      (Badger.Write Context.Background Faults.none
        (Badger.Write Context.Background Faults.none Badger.fresh (ascii "f")
          (ascii "x\ny\n")).store (ascii "f") (ascii "z\n")).err = none ∧
      (Badger.Read Context.Background Faults.none
        (Badger.Write Context.Background Faults.none
          (Badger.Write Context.Background Faults.none Badger.fresh (ascii "f")
            (ascii "x\ny\n")).store (ascii "f") (ascii "z\n")).store (ascii "f")
        Sink.buffer).sink.out = ascii "z\n" :=
  ⟨by decide, replace_semantics _ _ _ (by decide), by decide, by decide, by decide⟩

/-- C3, as stated, fails: `"a:b"` and `"a"` are distinct non-empty prefixes, yet after
writing `"x\n"` to `"a:b"` on a fresh store a `Read` of `"a"` sends `"x\n"`: the key
`"a:b:x"` starts with `"a:"`. -/
theorem prefix_isolation_fails_with_colon :
    ascii "a:b" ≠ ascii "a" ∧ ascii "a:b" ≠ [] ∧ ascii "a" ≠ [] ∧
      (writeThenRead Badger.fresh (ascii "a:b") (ascii "x\n") (ascii "a")).sink.out
        = ascii "x\n" ∧
      ¬ Isolated (ascii "a:b") (ascii "a") := by
  refine ⟨by decide, by decide, by decide, by decide, ?_⟩
  intro h
  exact absurd (h.2 (ascii "x\n")).2 (by decide)

/-- C3, amended: for every two prefixes `p1` and `p2` such that neither `p1 + ":"`
starts `p2 + ":"` nor `p2 + ":"` starts `p1 + ":"` (as for any two distinct prefixes
without a `:`), no `Write` to `p1`, whatever its input and outcome, changes what a
`Read` of `p2` returns or sends; and after a `Write` to `p1` on a fresh store a `Read`
of `p2` succeeds with empty output. -/
theorem prefix_isolation (p1 p2 : Bytes) (h : Independent p1 p2) : Isolated p1 p2 := by
  constructor
  · intro ctx env b r ctx2 env2 w
    obtain ⟨hw, hr, hdb⟩ := Write_frame ctx env b p1 p2 r h
    exact Read_congr ctx2 env2 _ b p2 w hw hr hdb
  · intro r
    obtain ⟨hw, hr, hdb⟩ := Write_frame Context.Background Faults.none Badger.fresh p1 p2 r h
    have hc := Read_congr Context.Background Faults.none _ Badger.fresh p2 Sink.buffer hw hr hdb
    unfold writeThenRead
    rw [hc.1, hc.2, Read_free Context.Background Faults.none Badger.fresh p2 Sink.buffer rfl rfl]
    have ho := Orchestrate_buffer Context.Background Faults.none Badger.fresh.db (p2 ++ colon)
      [] false rfl rfl
    constructor
    · show (Orchestrate _ _ _ _ Sink.buffer).1 = none
      unfold Sink.buffer
      rw [ho]
    · show (Orchestrate _ _ _ _ Sink.buffer).2.out = []
      unfold Sink.buffer
      rw [ho]
      rfl

/-- The prefixes of `TestBadgerDifferentPrefix` are independent, and reading
`"differentPrefix"` after the basic input was written to `"testing"` sends nothing. -/
theorem prefix_isolation_witness :
    Independent (ascii "testing") (ascii "differentPrefix") ∧
      Isolated (ascii "testing") (ascii "differentPrefix") ∧
      (writeThenRead Badger.fresh (ascii "testing") (ascii "hello\nwoot\nwoot\nnope\n")
        (ascii "differentPrefix")).sink.out = [] :=
  ⟨⟨by decide, by decide⟩, prefix_isolation _ _ ⟨by decide, by decide⟩, by decide⟩


/-! ## The claims: the access guard -/

/-- C4: conflict on acquire, for `Read` and `Write` alike, on any store and prefix.
If the prefix's write slot is held the call returns `ErrWriting`; otherwise, if its
read slot is held, the call returns `ErrReading`; in both cases the store (guard maps
and engine) and the sink are left as they were and no batch is opened. If neither
slot is held, whatever other prefixes hold, the call acquires its slot and runs its
body against the engine, and what it returns is no conflict error. -/
theorem conflict_on_acquire (ctx : Context) (env : Faults) (b : Badger) (p r : Bytes)
    (w : Sink) :
    (b.writing.get p = true →
      Badger.Write ctx env b p r = ⟨some .ErrWriting, b, none⟩ ∧
      Badger.Read ctx env b p w = ⟨some .ErrWriting, b, w⟩) ∧
    (b.writing.get p = false → b.reading.get p = true →
      Badger.Write ctx env b p r = ⟨some .ErrReading, b, none⟩ ∧
      Badger.Read ctx env b p w = ⟨some .ErrReading, b, w⟩) ∧
    (b.writing.get p = false → b.reading.get p = false →
      b.acquireWrite p = .ok { b with writing := b.writing.set p true } ∧
      b.acquireRead p = .ok { b with reading := b.reading.set p true } ∧
      Badger.Write ctx env b p r =
        ⟨(writeBody ctx env b.db p r).err,
          ⟨(b.writing.set p true).delete p, b.reading, (writeBody ctx env b.db p r).db⟩,
          some (writeBody ctx env b.db p r).batch⟩ ∧
      Badger.Read ctx env b p w =
        ⟨(Orchestrate ctx env b.db (p ++ colon) w).1,
          ⟨b.writing, (b.reading.set p true).delete p, b.db⟩,
          (Orchestrate ctx env b.db (p ++ colon) w).2⟩ ∧
      (∀ e, (Badger.Write ctx env b p r).err = some e → e.isConflict = false) ∧
      (∀ e, (Badger.Read ctx env b p w).err = some e → e.isConflict = false)) := by
  refine ⟨fun hw => ⟨Write_held_writing ctx env b p r hw, Read_held_writing ctx env b p w hw⟩,
    fun hw hr =>
      ⟨Write_held_reading ctx env b p r hw hr, Read_held_reading ctx env b p w hw hr⟩,
    fun hw hr => ⟨acquireWrite_free b p hw hr, acquireRead_free b p hw hr,
      Write_free ctx env b p r hw hr, Read_free ctx env b p w hw hr, ?_, ?_⟩⟩
  · intro e he
    rw [Write_free ctx env b p r hw hr] at he
    exact writeBody_not_conflict ctx env b.db p r e he
  · intro e he
    rw [Read_free ctx env b p w hw hr] at he
    exact Orchestrate_not_conflict ctx env b.db (p ++ colon) w e he

/-- With the write slot of `"p"` held, a `Write` and a `Read` of `"p"` return
`ErrWriting` and a `Write` to `"q"` still succeeds. -/
theorem conflict_on_acquire_witness :
    (Badger.Write Context.Background Faults.none
        ⟨BoolMap.empty.set (ascii "p") true, BoolMap.empty, []⟩ (ascii "p") (ascii "a\n")).err
        = some .ErrWriting ∧
      (Badger.Read Context.Background Faults.none
        ⟨BoolMap.empty.set (ascii "p") true, BoolMap.empty, []⟩ (ascii "p") Sink.buffer).err
        = some .ErrWriting ∧
      (Badger.Write Context.Background Faults.none
        ⟨BoolMap.empty.set (ascii "p") true, BoolMap.empty, []⟩ (ascii "q") (ascii "a\n")).err
        = none :=
  ⟨congrArg WriteResult.err
      ((conflict_on_acquire Context.Background Faults.none
        ⟨BoolMap.empty.set (ascii "p") true, BoolMap.empty, []⟩ (ascii "p") (ascii "a\n")
        Sink.buffer).1 (by decide)).1,
    congrArg ReadResult.err
      ((conflict_on_acquire Context.Background Faults.none
        ⟨BoolMap.empty.set (ascii "p") true, BoolMap.empty, []⟩ (ascii "p") (ascii "a\n")
        Sink.buffer).1 (by decide)).2,
    by decide⟩

/-! ### Mutual exclusion -/

theorem get_set (m : BoolMap) (p q : Bytes) (v : Bool) :
    (m.set p v).get q = if q = p then v else m.get q := by
  by_cases h : q = p <;> simp [BoolMap.get, BoolMap.set, h]

theorem get_delete (m : BoolMap) (p q : Bytes) :
    (m.delete p).get q = if q = p then false else m.get q := by
  by_cases h : q = p <;> simp [BoolMap.get, BoolMap.delete, h]

theorem no_holder_of_free (s : Sys) (hc : s.Consistent) (p : Bytes)
    (hw : s.store.writing.get p = false) (hr : s.store.reading.get p = false) :
    p ∉ s.active.map Op.pfx := by
  intro hm
  obtain ⟨o, ho, hp⟩ := List.mem_map.mp hm
  obtain ⟨q, m⟩ := o
  simp only at hp
  subst hp
  cases m with
  | read => rw [(hc.2.1 q).mpr ho] at hr; exact Bool.noConfusion hr
  | write => rw [(hc.1 q).mpr ho] at hw; exact Bool.noConfusion hw

theorem consistent_step (s t : Sys) (hc : s.Consistent) (h : Step s t) : t.Consistent := by
  have hnd : s.active.Nodup := List.Nodup.of_map _ hc.2.2
  cases h with
  | acquireRead p b1 ha =>
    simp only [Badger.acquireRead] at ha
    split at ha
    · exact absurd ha (by simp)
    · split at ha
      · exact absurd ha (by simp)
      · next hw hr =>
        simp only [Except.ok.injEq] at ha
        subst ha
        have hw' : s.store.writing.get p = false := by simpa using hw
        have hr' : s.store.reading.get p = false := by simpa using hr
        refine ⟨?_, ?_, ?_⟩
        · intro q
          simp [hc.1 q]
        · intro q
          by_cases hq : q = p
          · simp [get_set, hq]
          · simp [get_set, hq, hc.2.1 q]
        · simp only [List.map_cons, List.nodup_cons]
          exact ⟨no_holder_of_free s hc p hw' hr', hc.2.2⟩
  | acquireWrite p b1 ha =>
    simp only [Badger.acquireWrite] at ha
    split at ha
    · exact absurd ha (by simp)
    · split at ha
      · exact absurd ha (by simp)
      · next hw hr =>
        simp only [Except.ok.injEq] at ha
        subst ha
        have hw' : s.store.writing.get p = false := by simpa using hw
        have hr' : s.store.reading.get p = false := by simpa using hr
        refine ⟨?_, ?_, ?_⟩
        · intro q
          by_cases hq : q = p
          · simp [get_set, hq]
          · simp [get_set, hq, hc.1 q]
        · intro q
          simp [hc.2.1 q]
        · simp only [List.map_cons, List.nodup_cons]
          exact ⟨no_holder_of_free s hc p hw' hr', hc.2.2⟩
  | releaseRead p hin =>
    refine ⟨?_, ?_, ?_⟩
    · intro q
      simp [Badger.releaseRead, hnd.mem_erase_iff, hc.1 q]
    · intro q
      by_cases hq : q = p
      · simp [Badger.releaseRead, get_delete, hq, hnd.mem_erase_iff]
      · simp [Badger.releaseRead, get_delete, hq, hnd.mem_erase_iff, hc.2.1 q]
    · exact List.Nodup.sublist ((List.erase_sublist _ _).map _) hc.2.2
  | releaseWrite p hin =>
    refine ⟨?_, ?_, ?_⟩
    · intro q
      by_cases hq : q = p
      · simp [Badger.releaseWrite, get_delete, hq, hnd.mem_erase_iff]
      · simp [Badger.releaseWrite, get_delete, hq, hnd.mem_erase_iff, hc.1 q]
    · intro q
      simp [Badger.releaseWrite, hnd.mem_erase_iff, hc.2.1 q]
    · exact List.Nodup.sublist ((List.erase_sublist _ _).map _) hc.2.2
  | engine db1 => exact hc

theorem consistent_of_reachable (s : Sys) (h : Reachable s) : s.Consistent := by
  induction h with
  | refl =>
    refine ⟨?_, ?_, ?_⟩
    · intro q; simp [Sys.init, Badger.fresh, BoolMap.get, BoolMap.empty]
    · intro q; simp [Sys.init, Badger.fresh, BoolMap.get, BoolMap.empty]
    · simp [Sys.init]
  | tail _ hstep ih => exact consistent_step _ _ ih hstep

theorem holders_le_one (p : Bytes) :
    ∀ l : List Op, (l.map Op.pfx).Nodup →
      (l.filter (fun o => decide (o.pfx = p))).length ≤ 1 := by
  intro l
  induction l with
  | nil => intro _; simp
  | cons o l ih =>
    intro h
    simp only [List.map_cons, List.nodup_cons] at h
    by_cases ho : o.pfx = p
    · have hnil : l.filter (fun o => decide (o.pfx = p)) = [] := by
        rw [List.filter_eq_nil_iff]
        intro x hx
        simp only [decide_eq_true_eq]
        intro hxp
        exact h.1 (List.mem_map.mpr ⟨x, hx, by rw [hxp, ho]⟩)
      simp [List.filter_cons, ho, hnil]
    · simp only [List.filter_cons, ho, decide_False]
      exact ih h.2

/-- C5: mutual exclusion per prefix, as an invariant of the step relation. In every
state reachable from the fresh store with nothing in flight, each prefix has at most
one operation in flight (so never a read with a write, two reads or two writes);
while there is one, every `Read` and every `Write` of that prefix returns `ErrWriting`
or `ErrReading` and changes nothing; while there is none, both acquiring critical
sections succeed. -/
theorem mutual_exclusion (s : Sys) (h : Reachable s) (p : Bytes) :
    (s.holders p).length ≤ 1 ∧
    ((s.holders p).length = 1 →
      ∀ (ctx : Context) (env : Faults) (r : Bytes) (w : Sink),
        (Badger.Write ctx env s.store p r = ⟨some .ErrWriting, s.store, none⟩ ∨
          Badger.Write ctx env s.store p r = ⟨some .ErrReading, s.store, none⟩) ∧
        (Badger.Read ctx env s.store p w = ⟨some .ErrWriting, s.store, w⟩ ∨
          Badger.Read ctx env s.store p w = ⟨some .ErrReading, s.store, w⟩)) ∧
    ((s.holders p).length = 0 →
      s.store.acquireWrite p = .ok { s.store with writing := s.store.writing.set p true } ∧
      s.store.acquireRead p = .ok { s.store with reading := s.store.reading.set p true }) := by
  have hc := consistent_of_reachable s h
  refine ⟨holders_le_one p s.active hc.2.2, ?_, ?_⟩
  · intro h1 ctx env r w
    have hex : ∃ o, o ∈ s.holders p := by
      cases hh : s.holders p with
      | nil => rw [hh] at h1; simp at h1
      | cons o l => exact ⟨o, List.mem_cons_self _ _⟩
    obtain ⟨o, ho⟩ := hex
    simp only [Sys.holders, List.mem_filter, decide_eq_true_eq] at ho
    obtain ⟨q, m⟩ := o
    obtain ⟨hin, hq⟩ := ho
    simp only at hq
    subst hq
    cases hw : s.store.writing.get q with
    | true =>
      exact ⟨Or.inl (Write_held_writing ctx env _ q r hw),
        Or.inl (Read_held_writing ctx env _ q w hw)⟩
    | false =>
      have hr : s.store.reading.get q = true := by
        cases m with
        | read => exact (hc.2.1 q).mpr hin
        | write => rw [(hc.1 q).mpr hin] at hw; exact Bool.noConfusion hw
      exact ⟨Or.inr (Write_held_reading ctx env _ q r hw hr),
        Or.inr (Read_held_reading ctx env _ q w hw hr)⟩
  · intro h0
    have hnil : s.holders p = [] := List.length_eq_zero.mp h0
    simp only [Sys.holders, List.filter_eq_nil_iff, decide_eq_true_eq] at hnil
    have hw : s.store.writing.get p = false := by
      cases hw : s.store.writing.get p with
      | false => rfl
      | true => exact absurd rfl (hnil _ ((hc.1 p).mp hw))
    have hr : s.store.reading.get p = false := by
      cases hr : s.store.reading.get p with
      | false => rfl
      | true => exact absurd rfl (hnil _ ((hc.2.1 p).mp hr))
    exact ⟨acquireWrite_free _ p hw hr, acquireRead_free _ p hw hr⟩

/-- The state in which a `Write` of `"p"` has acquired its slot is reachable, has one
operation in flight on `"p"`, and rejects a `Read` of `"p"` with `ErrWriting`. -/
theorem mutual_exclusion_witness :
    Reachable ⟨{ Badger.fresh with writing := BoolMap.empty.set (ascii "p") true },
        [⟨ascii "p", .write⟩]⟩ ∧
      ((⟨{ Badger.fresh with writing := BoolMap.empty.set (ascii "p") true },
        [⟨ascii "p", .write⟩]⟩ : Sys).holders (ascii "p")).length = 1 ∧
      (Badger.Read Context.Background Faults.none
        { Badger.fresh with writing := BoolMap.empty.set (ascii "p") true } (ascii "p")
        Sink.buffer).err = some .ErrWriting :=
  have hreach : Reachable ⟨{ Badger.fresh with writing := BoolMap.empty.set (ascii "p") true },
      [⟨ascii "p", .write⟩]⟩ :=
    Relation.ReflTransGen.single (Step.acquireWrite Sys.init (ascii "p") _ rfl)
  ⟨hreach, by decide,
    ((((mutual_exclusion _ hreach (ascii "p")).2.1 (by decide)) Context.Background Faults.none
      [] Sink.buffer).2.elim (fun h => congrArg ReadResult.err h)
      (fun h => absurd (congrArg ReadResult.err h) (by decide)))⟩


/-- C6: slot release on every exit path. For every call of `Write` or `Read` on prefix
`p` that acquired its slot (both slots of `p` were free), whatever the context, the
engine faults, the input and the sink make of it, when the call returns `p` holds
neither slot and the guard maps are as before at every other prefix; hence no
following `Write` or `Read` of `p` returns a conflict error. -/
theorem slot_release (ctx ctx2 : Context) (env env2 : Faults) (b : Badger) (p r r2 : Bytes)
    (w w2 : Sink) (hw : b.writing.get p = false) (hr : b.reading.get p = false) :
    ((Badger.Write ctx env b p r).store.writing.get p = false ∧
      (Badger.Write ctx env b p r).store.reading.get p = false ∧
      (∀ q, q ≠ p → (Badger.Write ctx env b p r).store.writing q = b.writing q ∧
        (Badger.Write ctx env b p r).store.reading q = b.reading q) ∧
      (∀ e, (Badger.Write ctx2 env2 (Badger.Write ctx env b p r).store p r2).err = some e →
        e.isConflict = false) ∧
      (∀ e, (Badger.Read ctx2 env2 (Badger.Write ctx env b p r).store p w2).err = some e →
        e.isConflict = false)) ∧
    ((Badger.Read ctx env b p w).store.writing.get p = false ∧
      (Badger.Read ctx env b p w).store.reading.get p = false ∧
      (∀ q, q ≠ p → (Badger.Read ctx env b p w).store.writing q = b.writing q ∧
        (Badger.Read ctx env b p w).store.reading q = b.reading q) ∧
      (∀ e, (Badger.Write ctx2 env2 (Badger.Read ctx env b p w).store p r2).err = some e →
        e.isConflict = false) ∧
      (∀ e, (Badger.Read ctx2 env2 (Badger.Read ctx env b p w).store p w2).err = some e →
        e.isConflict = false)) := by
  have key : ∀ s : Badger, s.writing.get p = false → s.reading.get p = false →
      (∀ e, (Badger.Write ctx2 env2 s p r2).err = some e → e.isConflict = false) ∧
      (∀ e, (Badger.Read ctx2 env2 s p w2).err = some e → e.isConflict = false) := by
    intro s hsw hsr
    constructor
    · intro e he
      rw [Write_free ctx2 env2 s p r2 hsw hsr] at he
      exact writeBody_not_conflict ctx2 env2 s.db p r2 e he
    · intro e he
      rw [Read_free ctx2 env2 s p w2 hsw hsr] at he
      exact Orchestrate_not_conflict ctx2 env2 s.db (p ++ colon) w2 e he
  constructor
  · rw [Write_free ctx env b p r hw hr]
    have h1 : ((b.writing.set p true).delete p).get p = false := by simp [get_set_delete]
    refine ⟨h1, hr, ?_, key _ h1 hr⟩
    intro q hq
    exact ⟨set_delete_other b.writing p q hq, rfl⟩
  · rw [Read_free ctx env b p w hw hr]
    have h1 : ((b.reading.set p true).delete p).get p = false := by simp [get_set_delete]
    refine ⟨hw, h1, ?_, key _ hw h1⟩
    intro q hq
    exact ⟨rfl, set_delete_other b.reading p q hq⟩

/-- Calls that acquire and then fail: a `Read` into a full sink, a `Write` whose flush
fails, and a `Write` on an already cancelled context, which returns the context error,
leaves the write slot free and lets the next `Write` of the prefix return `nil`. -/
theorem slot_release_witness :
    Badger.fresh.writing.get (ascii "p") = false ∧
      Badger.fresh.reading.get (ascii "p") = false ∧
      (Badger.Read Context.Background Faults.none
        ⟨BoolMap.empty, BoolMap.empty, [entry (ascii "p") (ascii "a")]⟩ (ascii "p")
        ⟨[], some 0, true⟩).err = some .kvWriteFailed ∧
      (Badger.Write Context.Background ⟨false, none, true, false, 1⟩ Badger.fresh (ascii "p")
        (ascii "a\n")).err = some .flushFailed ∧
      (Badger.Write ⟨some 0, .Canceled⟩ Faults.none Badger.fresh (ascii "p") (ascii "a\n")).err
        = some (.context .Canceled) ∧
      (Badger.Write ⟨some 0, .Canceled⟩ Faults.none Badger.fresh (ascii "p")
        (ascii "a\n")).store.writing.get (ascii "p") = false ∧
      (Badger.Write Context.Background Faults.none
        (Badger.Write ⟨some 0, .Canceled⟩ Faults.none Badger.fresh (ascii "p")
          (ascii "a\n")).store (ascii "p") (ascii "a\n")).err = none :=
  ⟨rfl, rfl, by decide, by decide, by decide,
    (slot_release ⟨some 0, .Canceled⟩ Context.Background Faults.none Faults.none Badger.fresh
      (ascii "p") (ascii "a\n") (ascii "a\n") Sink.buffer Sink.buffer rfl rfl).1.1,
    by decide⟩

/-! ## The claims: what `Write` does with its input -/

theorem Scan_long_line (n : Nat) (hn : maxScanTokenSize ≤ n) (tail : Bytes) :
    Scanner.Scan maxScanTokenSize (List.replicate n 97 ++ 10 :: tail) = none := by
  have htake : (List.replicate n 97 ++ 10 :: tail).take maxScanTokenSize =
      List.replicate maxScanTokenSize 97 := by
    rw [List.take_append_of_le_length (by rw [List.length_replicate]; exact hn),
      List.take_replicate, Nat.min_eq_left hn]
  apply Scan_too_long
  · rw [htake]
    exact IndexByte_replicate 97 10 _ (by decide)
  · rw [List.length_append, List.length_replicate]
    omega

theorem scannedLines_long_line (n : Nat) (hn : maxScanTokenSize ≤ n) (tail : Bytes) :
    scannedLines (List.replicate n 97 ++ 10 :: tail) = [] := by
  rw [scannedLines, Scanner.tokens, Scan_long_line n hn tail]

theorem rawLines_long_line (n : Nat) (tail : Bytes) :
    rawLines (List.replicate n 97 ++ 10 :: tail) = List.replicate n 97 :: rawLines tail := by
  apply rawLines_append_newline
  intro h
  exact absurd (List.eq_of_mem_replicate h) (by decide)

/-- C7 fails on the code: an input whose first line is `maxScanTokenSize` bytes long,
followed by the line `"b"`. The text has these two lines, the scanner stops at once
with `ErrTooLong`, `Write` returns `nil`, and yet the store is empty: neither the long
line nor the line after it is stored, and reading the prefix back sends nothing. -/
theorem long_line_is_dropped_silently :
    rawLines (List.replicate maxScanTokenSize 97 ++ 10 :: [98, 10]) =
        [List.replicate maxScanTokenSize 97, [98]] ∧
      Scanner.tooLong maxScanTokenSize (List.replicate maxScanTokenSize 97 ++ 10 :: [98, 10])
        = true ∧
      (Badger.Write Context.Background Faults.none Badger.fresh (ascii "p")
        (List.replicate maxScanTokenSize 97 ++ 10 :: [98, 10])).err = none ∧
      (Badger.Write Context.Background Faults.none Badger.fresh (ascii "p")
        (List.replicate maxScanTokenSize 97 ++ 10 :: [98, 10])).store.db = [] ∧
      (writeThenRead Badger.fresh (ascii "p")
        (List.replicate maxScanTokenSize 97 ++ 10 :: [98, 10]) (ascii "p")).sink.out = [] := by
  have hok := Write_ok Badger.fresh (ascii "p")
    (List.replicate maxScanTokenSize 97 ++ 10 :: [98, 10]) rfl rfl
  obtain ⟨_, _, hst⟩ := Write_success _ _ _ _ _ hok
  have hdb : written Badger.fresh.db (ascii "p")
      (List.replicate maxScanTokenSize 97 ++ 10 :: [98, 10]) = [] := by
    rw [written, scannedLines_long_line _ (Nat.le_refl _)]
    rfl
  refine ⟨?_, ?_, hok, ?_, ?_⟩
  · rw [rawLines_long_line]
    rfl
  · rw [Scanner.tooLong, Scan_long_line _ (Nat.le_refl _), List.length_append,
      List.length_replicate]
    simp
  · rw [hst, hdb]
  · obtain ⟨_, L, _, hm, hout⟩ := write_read_back Context.Background Context.Background
      Faults.none Faults.none Badger.fresh (ascii "p")
      (List.replicate maxScanTokenSize 97 ++ 10 :: [98, 10]) hok rfl rfl
    rw [scannedLines_long_line _ (Nat.le_refl _)] at hm
    have hL : L = [] := List.eq_nil_iff_forall_not_mem.mpr (fun t ht => by simpa using (hm t).mp ht)
    unfold writeThenRead
    rw [hout, hL, emit_nil]

/-- C8 fails on the code: with the context cancelled before the call and an empty
input, `Write` returns `nil` instead of the context error, having dropped the old
entry of the prefix and flushed its (empty) batch; and with the context cancelled
after the only line was polled, `Write` returns `nil` with the line committed. -/
theorem cancelled_write_returns_nil :
    (Badger.Write ⟨some 0, .Canceled⟩ Faults.none
        ⟨BoolMap.empty, BoolMap.empty, [entry (ascii "p") (ascii "old")]⟩ (ascii "p") []).err
        = none ∧
      (Badger.Write ⟨some 0, .Canceled⟩ Faults.none
        ⟨BoolMap.empty, BoolMap.empty, [entry (ascii "p") (ascii "old")]⟩ (ascii "p")
        []).store.db = [] ∧
      (Badger.Write ⟨some 0, .Canceled⟩ Faults.none
        ⟨BoolMap.empty, BoolMap.empty, [entry (ascii "p") (ascii "old")]⟩ (ascii "p") []).batch
        = some ⟨[], .flushed⟩ ∧
      (Badger.Write ⟨some 1, .Canceled⟩ Faults.none Badger.fresh (ascii "p") (ascii "a\n")).err
        = none ∧
      (Badger.Write ⟨some 1, .Canceled⟩ Faults.none Badger.fresh (ascii "p")
        (ascii "a\n")).store.db = [entry (ascii "p") (ascii "a")] := by
  decide

/-- C9 fails on the code: when the context is found cancelled at the second line, and
when `DropPrefix` fails, `Write` returns its error with the batch neither flushed nor
cancelled (in the first case with the first line still staged in it), whereas the
failing `SetEntry` and the failing `Flush` do cancel it. -/
theorem batch_left_open_on_error :
    (Badger.Write ⟨some 1, .Canceled⟩ Faults.none Badger.fresh (ascii "p")
        (ascii "a\nb\n")).err = some (.context .Canceled) ∧
      (Badger.Write ⟨some 1, .Canceled⟩ Faults.none Badger.fresh (ascii "p")
        (ascii "a\nb\n")).batch = some ⟨[entry (ascii "p") (ascii "a")], .pending⟩ ∧
      (Badger.Write Context.Background ⟨true, none, false, false, 1⟩ Badger.fresh (ascii "p")
        (ascii "a\n")).err = some .clearPrefixFailed ∧
      (Badger.Write Context.Background ⟨true, none, false, false, 1⟩ Badger.fresh (ascii "p")
        (ascii "a\n")).batch = some ⟨[], .pending⟩ ∧
      (Badger.Write Context.Background ⟨false, some 1, false, false, 1⟩ Badger.fresh (ascii "p")
        (ascii "a\nb\n")).batch = some ⟨[], .cancelled⟩ ∧
      (Badger.Write Context.Background ⟨false, none, true, false, 1⟩ Badger.fresh (ascii "p")
        (ascii "a\n")).batch = some ⟨[], .cancelled⟩ := by
  decide

/-- C10: the stored set, against its reference definition. For every prefix and every
input whose raw lines fit the scanner's token limit, a `Write` to a fresh store returns
`nil` and leaves, all under the prefix and each once, exactly the entries
`(prefix + ":" + t, t)` for `t` among the line tokens of the input (split at `\n`, one
`\r` before it dropped, a final unterminated non-empty line counted, empty lines
kept); a `Read` of the prefix then succeeds and sends these tokens strictly ascending
bytewise, each followed by `\n`; and any other fitting input with the same set of
tokens reads back the same. -/
theorem stored_set_reference (p r : Bytes) (hfit : linesFit r) :
    (Badger.Write Context.Background Faults.none Badger.fresh p r).err = none ∧
    (∀ kv, kv ∈ (Badger.Write Context.Background Faults.none Badger.fresh p r).store.db ↔
      ∃ t ∈ lineTokens r, kv = entry p t) ∧
    (Badger.Write Context.Background Faults.none Badger.fresh p r).store.db.Nodup ∧
    (Badger.Write Context.Background Faults.none Badger.fresh p r).store.db.under (p ++ colon) =
      (Badger.Write Context.Background Faults.none Badger.fresh p r).store.db ∧
    (writeThenRead Badger.fresh p r p).err = none ∧
    (∃ L : List Bytes, L.Sorted (· < ·) ∧ (∀ t, t ∈ L ↔ t ∈ lineTokens r) ∧
      (writeThenRead Badger.fresh p r p).sink.out = emit L) ∧
    ∀ r2 : Bytes, linesFit r2 → (∀ t, t ∈ lineTokens r2 ↔ t ∈ lineTokens r) →
      (writeThenRead Badger.fresh p r2 p).sink.out = (writeThenRead Badger.fresh p r p).sink.out := by
  have main : ∀ x : Bytes, linesFit x →
      (Badger.Write Context.Background Faults.none Badger.fresh p x).err = none ∧
      (Badger.Write Context.Background Faults.none Badger.fresh p x).store.db =
        ((lineTokens x).map (entry p)).foldl DB.set [] ∧
      (writeThenRead Badger.fresh p x p).err = none ∧
      ∃ L : List Bytes, L.Sorted (· < ·) ∧ (∀ t, t ∈ L ↔ t ∈ lineTokens x) ∧
        (writeThenRead Badger.fresh p x p).sink.out = emit L := by
    intro x hx
    have hok := Write_ok Badger.fresh p x rfl rfl
    obtain ⟨_, _, hst⟩ := Write_success _ _ _ _ _ hok
    have hrd := write_read_back Context.Background Context.Background Faults.none Faults.none
      Badger.fresh p x hok rfl rfl
    rw [scannedLines_eq_lineTokens x hx] at hrd
    refine ⟨hok, ?_, hrd.1, hrd.2⟩
    rw [hst]
    show written [] p x = _
    rw [written, scannedLines_eq_lineTokens x hx]
    rfl
  obtain ⟨hok, hdb, hrerr, L, hLs, hLm, hLo⟩ := main r hfit
  refine ⟨hok, ?_, ?_, ?_, hrerr, ⟨L, hLs, hLm, hLo⟩, ?_⟩
  · intro kv
    rw [hdb]
    exact mem_foldl_set_entries_nil p (lineTokens r) kv
  · rw [hdb]
    exact nodup_foldl_set _ _ List.nodup_nil
  · rw [hdb]
    have : ∀ kv ∈ ((lineTokens r).map (entry p)).foldl DB.set [],
        (p ++ colon).isPrefixOf kv.key = true := by
      intro kv hkv
      obtain ⟨t, _, rfl⟩ := (mem_foldl_set_entries_nil p (lineTokens r) kv).mp hkv
      exact entry_isPrefixOf p t
    exact List.filter_eq_self.mpr this
  · intro r2 hfit2 hsame
    obtain ⟨_, _, _, L2, hL2s, hL2m, hL2o⟩ := main r2 hfit2
    rw [hLo, hL2o, sorted_unique L2 L hL2s hLs (fun t => (hL2m t).trans ((hsame t).trans (hLm t).symm))]

/-- An input with a CRLF line, an empty line, a repeated line and a final line without
newline fits the scanner; its tokens are `b`, the empty token, `a`, `b`, `a`, and it
reads back as `"\na\nb\n"`. -/
theorem stored_set_reference_witness :
    linesFit (ascii "b\r\n\na\nb\na") ∧
      lineTokens (ascii "b\r\n\na\nb\na") = [ascii "b", [], ascii "a", ascii "b", ascii "a"] ∧
      (writeThenRead Badger.fresh (ascii "p") (ascii "b\r\n\na\nb\na") (ascii "p")).sink.out
        = ascii "\na\nb\n" ∧
      (Badger.Write Context.Background Faults.none Badger.fresh (ascii "p")
        (ascii "b\r\n\na\nb\na")).err = none :=
  ⟨by unfold linesFit; decide, by decide, by decide,
    (stored_set_reference (ascii "p") (ascii "b\r\n\na\nb\na") (by unfold linesFit; decide)).1⟩


end Store
